import Mathlib

/-!
Verification of the cpack manifest schema (`src/cpack/__init__.py`).

The Python code defines pydantic models (`Checksum`, `Link`, `ContractType`,
`Source`, `Compiler`, `Manifest`) over constrained strings (`Name`, `DepPath`,
`RelPath`, `Address`), a cross-reference `root_validator`, and a customised
`BaseModel.dict`/`BaseModel.json` pair producing a canonical serialization
(`exclude_defaults=True`, `sort_keys=True`, `separators=(",", ":")`).

This file gives a shallow embedding:
* `Json` models a JSON-compatible document (the input of `Manifest.parse_obj`
  and the output shape of `Manifest.dict`/`json`); objects are ordered lists
  of key/value pairs, mirroring Python's insertion-ordered `dict`.
* `decodeManifest` models pydantic validation of a document.  Pydantic
  collects all field errors before failing; we model this fail-fast with
  `Except`, which has the same success/failure behaviour and the same
  successful values.
* `Manifest.encodeDoc` models the document produced by the customised
  `json()` (defaults omitted, every mapping's keys emitted in Python
  `sorted` order), and `Json.dumpChars` models `json.dumps` rendering with
  `separators=(",", ":")` and `ensure_ascii=True`.
-/

namespace Cpack

/-- Lexicographic comparison of char lists by code point; this is how Python
compares `str` values (and hence how `sorted`/`sort_keys` orders string
keys). -/
def lexLe : List Char → List Char → Bool
  | [], _ => true
  | _ :: _, [] => false
  | a :: as, b :: bs =>
    if a.toNat < b.toNat then true
    else if b.toNat < a.toNat then false
    else lexLe as bs

/-- Python `<=` on strings (code-point lexicographic). -/
def strLe (a b : String) : Bool := lexLe a.data b.data

/-- Python `<=` on ints (used by `sorted` on integer dict keys). -/
def intLe (a b : Int) : Bool := decide (a ≤ b)

/-- Insert a key/value pair into a list ordered by `le` on keys (helper of
`sortPairs`). -/
def insPair {κ ν : Type} (le : κ → κ → Bool) (x : κ × ν) :
    List (κ × ν) → List (κ × ν)
  | [] => [x]
  | y :: ys => if le x.1 y.1 then x :: y :: ys else y :: insPair le x ys

/-- Stable insertion sort of key/value pairs by key, modelling Python's
stable `sorted` as used by `json.dumps(..., sort_keys=True)` on the items of
a `dict` (dict keys are distinct, so comparison never reaches the values). -/
def sortPairs {κ ν : Type} (le : κ → κ → Bool) : List (κ × ν) → List (κ × ν)
  | [] => []
  | x :: xs => insPair le x (sortPairs le xs)

/-- A JSON-compatible document: the "mapping of string keys to
JSON-compatible values" that `decode` consumes and `encode` produces.
Objects keep their (insertion) entry order like Python dicts; numbers are
restricted to integers, which is all the schema and its canonical form
need. -/
inductive Json where
  | str (s : String)
  | num (n : Int)
  | bool (b : Bool)
  | null
  | arr (xs : List Json)
  | obj (es : List (String × Json))

/-- First-occurrence lookup in an object's entries: Python `dict` access
(keys of a Python dict are unique, so first = only occurrence). -/
def findVal : List (String × Json) → String → Option Json
  | [], _ => none
  | (k, v) :: es, key => if k = key then some v else findVal es key

/-- Python `key in d` on a string-keyed mapping. -/
def hasKey {ν : Type} (l : List (String × ν)) (k : String) : Bool :=
  l.any (fun e => e.1 == k)

/-- Keys of an entry list, in order. -/
def keysOf {κ ν : Type} (l : List (κ × ν)) : List κ := l.map (fun e => e.1)

/-! ## Primitive validators (`Name`, `DepPath`, `RelPath`, `Address`, URLs)

Each `ConstrainedStr` subclass carries a regex and length bounds; pydantic
accepts a string iff the regex matches (anchored on both sides) and the
length bounds hold.  We translate each regex into an executable predicate on
the character list. -/

/-- Charset `[A-Za-z0-9_-]` of `Name.regex = ^[-A-Za-z0-9_]*$`. -/
def nameChar (c : Char) : Bool := c.isAlphanum || c = '_' || c = '-'

/-- `Name`: `regex = ^[-A-Za-z0-9_]*$`, `min_length = 1`. -/
def isName (s : String) : Bool := !s.data.isEmpty && s.data.all nameChar

/-- Charset `[A-Za-z0-9./]` of the path regexes. -/
def pathChar (c : Char) : Bool := c.isAlphanum || c = '.' || c = '/'

/-- Body of both path regexes: a char list matches `[A-Za-z0-9./]*\.[a-z]*`
(anchored) iff every char is in the charset and the chars after the last
dot - equivalently, the maximal lowercase suffix - are preceded by a dot.
Note the trailing `[a-z]*` is a Kleene star: a bare trailing dot matches. -/
def pathBody (cs : List Char) : Bool :=
  !cs.isEmpty && cs.all pathChar &&
    (cs.reverse.dropWhile Char.isLower).head? == some '.'

/-- One trailing newline removed, when present.  Python's `$` (without
`re.MULTILINE`) matches at the end of the string or just before a newline
ending the string, so `regex.match(s)` for these fully anchored patterns
accepts exactly the strings whose chop matches the newline-free pattern
(`\n` belongs to no character class of the patterns). -/
def chopNl : List Char → List Char
  | [] => []
  | [c] => if c = '\n' then [] else [c]
  | c :: c2 :: cs => c :: chopNl (c2 :: cs)

/-- `DepPath`: `regex = ^[A-Za-z0-9\./]*\.[a-z]*$`, `min_length = 1`,
checked by `re.match` (so `$` also matches before one trailing newline). -/
def isDepPath (s : String) : Bool := pathBody (chopNl s.data)

/-- The `RelPath` pattern on an already chopped char list: `./` then the
common body. -/
def relPathBody : List Char → Bool
  | c1 :: c2 :: rest => c1 = '.' && c2 = '/' && pathBody rest
  | _ => false

/-- `RelPath`: `regex = ^\./[A-Za-z0-9\./]*\.[a-z]*$`, `min_length = 1`,
checked by `re.match` (same `$` semantics as `DepPath`). -/
def isRelPath (s : String) : Bool := relPathBody (chopNl s.data)

/-- Hex digit of `[A-Fa-f0-9]`. -/
def hexChar (c : Char) : Bool :=
  c.isDigit || ('a' ≤ c && c ≤ 'f') || ('A' ≤ c && c ≤ 'F')

/-- `Address`: `regex = ^0x[A-Fa-f0-9]{40}$`, `min_length = max_length = 42`. -/
def isAddress (s : String) : Bool :=
  match s.data with
  | c1 :: c2 :: rest =>
    c1 = '0' && c2 = 'x' && rest.length = 40 && rest.all hexChar
  | _ => false

/-- Scheme charset of a URL: `[a-z0-9+.-]` (case-insensitive). -/
def schemeChar (c : Char) : Bool := c.isAlphanum || c = '+' || c = '.' || c = '-'

/-- Split a char list at the first `://`, returning the part before (the
scheme) and the part after. -/
def splitScheme (acc : List Char) : List Char → Option (List Char × List Char)
  | ':' :: '/' :: '/' :: rest => some (acc.reverse, rest)
  | c :: cs => splitScheme (c :: acc) cs
  | [] => none

/-- Models pydantic's `AnyUrl` validation for the `scheme://host...` shape
the schema stores (length within `2 ** 16`, a nonempty scheme of
`[A-Za-z0-9+.-]` starting with a letter, `://`, then a nonempty host part):
accepted URL strings are kept verbatim. -/
def isUrl (s : String) : Bool :=
  s.data.length ≥ 1 && s.data.length ≤ 65536 &&
    match splitScheme [] s.data with
    | some (sch, rest) =>
      !sch.isEmpty && sch.all schemeChar && (sch.head?.all Char.isAlpha) &&
        match rest with
        | r :: _ => r != '/'
        | [] => false
    | none => false

/-! ## Python `int` parsing and `str(int)` rendering -/

/-- The whitespace Python `int()` strips from an ASCII string (CPython's
`Py_ISSPACE`): space, `\t`, `\n`, `\v`, `\f` and `\r`. -/
def pyWs (c : Char) : Bool :=
  c.toNat = 32 || (9 ≤ c.toNat && c.toNat ≤ 13)

/-- Both ends stripped of that whitespace. -/
def stripWs (cs : List Char) : List Char :=
  ((cs.dropWhile pyWs).reverse.dropWhile pyWs).reverse

mutual

/-- The digit run after its first digit, accumulating the value: decimal
digits with single underscores allowed between digits (PEP 515 grouping,
which `int()` accepts). -/
def digitsVal (a : Nat) : List Char → Option Nat
  | [] => some a
  | c :: rest =>
    if c.isDigit then digitsVal (a * 10 + (c.toNat - 48)) rest
    else if c = '_' then digitsUnd a rest
    else none

/-- After an underscore a digit must follow (no trailing or doubled
underscore). -/
def digitsUnd (a : Nat) : List Char → Option Nat
  | [] => none
  | c :: rest =>
    if c.isDigit then digitsVal (a * 10 + (c.toNat - 48)) rest else none

end

/-- A nonempty underscore-grouped digit run, to its value. -/
def parseDigits : List Char → Option Nat
  | [] => none
  | c :: rest => if c.isDigit then digitsVal (c.toNat - 48) rest else none

/-- The stripped string: an optional sign followed by the digit run. -/
def pyIntCore : List Char → Option Int
  | [] => none
  | c :: cs =>
    if c = '-' then (parseDigits cs).map (fun n => -(n : Int))
    else if c = '+' then (parseDigits cs).map (fun n => (n : Int))
    else (parseDigits (c :: cs)).map (fun n => (n : Int))

/-- `pyInt` on the character list: surrounding whitespace stripped, then an
optional sign and underscore-grouped decimal digits. -/
def pyIntChars (cs : List Char) : Option Int := pyIntCore (stripWs cs)

/-- Python `int(s)` as pydantic's `int` validator applies it to the string
keys of a decoded `deployments` mapping, for ASCII strings: surrounding
whitespace stripped (`int(" 5") = 5`), an optional sign, then decimal
digits with single underscores between digits (`int("1_0") = 10`).  Note a
leading `-` is accepted: the annotation is plain `int`, so negative chain
ids validate.  Python also accepts non-ASCII decimal digits and non-ASCII
whitespace; the embedding covers the ASCII fragment, and the deployments
characterization is scoped to ASCII keys. -/
def pyInt (s : String) : Option Int := pyIntChars s.data

/-- Decimal digit char. -/
def digitCh (d : Nat) : Char := Char.ofNat (48 + d)

/-- Fuelled digit expansion (the fuel only drives structural termination;
`natChars` always supplies enough). -/
def natCharsAux : Nat → Nat → List Char
  | 0, _ => []
  | fuel + 1, n =>
    if n < 10 then [digitCh n]
    else natCharsAux fuel (n / 10) ++ [digitCh (n % 10)]

/-- Decimal rendering of a natural number (Python `str` on a nonnegative
`int`, as `json.dumps` renders integer keys and values). -/
def natChars (n : Nat) : List Char := natCharsAux (n + 1) n

/-- Python `str(i)` for an `int`. -/
def intChars (i : Int) : List Char :=
  if i < 0 then '-' :: natChars i.natAbs else natChars i.natAbs

/-- Python `str(i)` as a `String`. -/
def intStr (i : Int) : String := String.mk (intChars i)

/-! ## The data model

One Lean structure per pydantic model.  Mappings become insertion-ordered
association lists (Python `dict`), `X | None` fields become `Option`,
constrained strings stay `String` (their constraints are enforced by the
decoder and recorded in the validity predicates below). -/

/-- `Checksum(algorithm: str, hash: str)` - both fields required, no
defaults. -/
structure Checksum where
  algorithm : String
  hash : String

/-- `Link(uri: AnyUrl, checksum: Checksum | None = None)`. -/
structure Link where
  uri : String
  checksum : Option Checksum

/-- `ContractType(compiler: Name, sources: list[RelPath | DepPath] = [],
deployments: dict[int, list[Address]] = {}, output: Link | None = None)`. -/
structure ContractType where
  compiler : String
  sources : List String
  deployments : List (Int × List String)
  output : Option Link

/-- `Source(link: Link)` with `Config.extra = Extra.allow`: unrecognized
fields are kept in `extra` (pydantic stores them on the instance, in input
order). -/
structure Source where
  link : Link
  extra : List (String × Json)

/-- `Compiler(bin: Link, settings: dict = {})`.  No `extra` configuration:
pydantic's default `Extra.ignore` silently drops unknown fields. -/
structure Compiler where
  bin : Link
  settings : List (String × Json)

/-- `Manifest`: the aggregate root.  `manifest: Literal["cpack/v1"]` is the
only required field; the rest default to empty values.  No `extra`
configuration, so unknown top-level fields are silently dropped. -/
structure Manifest where
  manifest : String
  name : String
  metadata : List (String × Json)
  types : List (String × ContractType)
  sources : List (String × Source)
  compilers : List (String × Compiler)
  dependencies : List (String × Link)

/-! ## Canonicalization

`json.dumps(..., sort_keys=True)` emits every object's keys in `sorted`
order, recursively; `sorted` on string keys is code-point lexicographic and
on the `int` keys of `deployments` it is numeric.  `canonJson` (and the
`Manifest`-level `Manifest.canon`) is that key ordering applied to the data
itself; two Python values are `==` (dict order is irrelevant to Python
equality) iff their canonical forms agree. -/

mutual

/-- Canonical form of a document: all object entry lists sorted by key. -/
def canonJson : Json → Json
  | .str s => .str s
  | .num n => .num n
  | .bool b => .bool b
  | .null => .null
  | .arr xs => .arr (canonList xs)
  | .obj es => .obj (sortPairs strLe (canonEntries es))

/-- `canonJson` mapped over an array's elements. -/
def canonList : List Json → List Json
  | [] => []
  | j :: js => canonJson j :: canonList js

/-- `canonJson` mapped over an object's values (sorting is done by the
caller). -/
def canonEntries : List (String × Json) → List (String × Json)
  | [] => []
  | (k, v) :: es => (k, canonJson v) :: canonEntries es

end

/-- Canonical form of raw object entries: values canonicalized, keys
sorted. -/
def canonObj (es : List (String × Json)) : List (String × Json) :=
  sortPairs strLe (canonEntries es)

/-- Canonical form of a `ContractType`: `deployments` keys in numeric order
(`sources` and each address list keep their order). -/
def ContractType.canon (ct : ContractType) : ContractType :=
  { ct with deployments := sortPairs intLe ct.deployments }

/-- Canonical form of a `Source`: extra fields sorted by key, their raw
values canonicalized. -/
def Source.canon (s : Source) : Source :=
  { s with extra := canonObj s.extra }

/-- Canonical form of a `Compiler`. -/
def Compiler.canon (c : Compiler) : Compiler :=
  { c with settings := canonObj c.settings }

/-- Canonical form of a `Manifest`: every mapping sorted by key, values
canonicalized. -/
def Manifest.canon (m : Manifest) : Manifest where
  manifest := m.manifest
  name := m.name
  metadata := canonObj m.metadata
  types := (sortPairs strLe m.types).map (fun e => (e.1, e.2.canon))
  sources := (sortPairs strLe m.sources).map (fun e => (e.1, e.2.canon))
  compilers := (sortPairs strLe m.compilers).map (fun e => (e.1, e.2.canon))
  dependencies := sortPairs strLe m.dependencies

/-- Structural equality of manifests in the sense of Python `==` on the
decoded values: mapping entry order is irrelevant, everything else is
compared exactly.  Formally: the canonical forms coincide. -/
def Manifest.StructEq (a b : Manifest) : Prop := a.canon = b.canon

/-! ## Decoding (`Manifest.parse_obj` and the validators it runs)

Pydantic validates the declared fields in declaration order and then runs
the `root_validator`; a document validates iff no field validator and no
root assertion fails.  We model the error exits with a small error type:
pydantic wraps everything in `ValidationError`, distinguishing missing
fields, type/constraint errors, the `Literal` mismatch and the (bare,
message-less) `assert` of `validate_types`. -/

inductive DecodeError where
  | notObject
  | missingField
  | unsupportedTag
  | invalidValue
  | assertionFailed
deriving DecidableEq

/-- Pydantic `str` validator: `str` passes through, numbers and bools are
coerced with Python `str()`, anything else is a type error. -/
def decodeStr : Json → Except DecodeError String
  | .str s => .ok s
  | .num n => .ok (intStr n)
  | .bool b => .ok (if b then "True" else "False")
  | _ => .error .invalidValue

/-- A `ConstrainedStr` validator: the `str` validator followed by the
regex/length check `chk`. -/
def decodeConStr (chk : String → Bool) (j : Json) : Except DecodeError String := do
  let s ← decodeStr j
  if chk s then pure s else Except.error .invalidValue

/-- `RelPath | DepPath` union: pydantic tries each member left to right; both
subclass `str`, so the accepted value is the string itself. -/
def decodePath (j : Json) : Except DecodeError String :=
  decodeConStr (fun s => isRelPath s || isDepPath s) j

/-- Run a decoder over a list (a JSON array's elements). -/
def decodeList {α : Type} (dec : Json → Except DecodeError α) :
    List Json → Except DecodeError (List α)
  | [] => .ok []
  | j :: js => do
    let a ← dec j
    let as ← decodeList dec js
    pure (a :: as)

/-- `Checksum`: both `algorithm` and `hash` are required `str` fields (no
defaults, and no constraint beyond being a string - empty is fine). -/
def decodeChecksum : Json → Except DecodeError Checksum
  | .obj es => do
    let a ← match findVal es "algorithm" with
      | none => Except.error .missingField
      | some v => decodeStr v
    let h ← match findVal es "hash" with
      | none => Except.error .missingField
      | some v => decodeStr v
    pure ⟨a, h⟩
  | _ => .error .invalidValue

/-- `Link`: required `uri: AnyUrl`, optional `checksum: Checksum | None`. -/
def decodeLink : Json → Except DecodeError Link
  | .obj es => do
    let u ← match findVal es "uri" with
      | none => Except.error .missingField
      | some v => decodeConStr isUrl v
    let c ← match findVal es "checksum" with
      | none => Except.ok none
      | some .null => Except.ok none
      | some v => (decodeChecksum v).map some
    pure ⟨u, c⟩
  | _ => .error .invalidValue

/-- One `deployments` entry: the string key must satisfy Python `int()`, the
value must be an array of `Address` strings.  Nothing is deduplicated. -/
def decodeDepEntries : List (String × Json) → Except DecodeError (List (Int × List String))
  | [] => .ok []
  | (k, v) :: es => do
    let n ← match pyInt k with
      | some n => Except.ok n
      | none => Except.error .invalidValue
    let addrs ← match v with
      | .arr xs => decodeList (decodeConStr isAddress) xs
      | _ => Except.error .invalidValue
    let rest ← decodeDepEntries es
    pure ((n, addrs) :: rest)

/-- `ContractType`: required `compiler: Name`; `sources`, `deployments` and
`output` are optional with empty defaults. -/
def decodeContractType : Json → Except DecodeError ContractType
  | .obj es => do
    let comp ← match findVal es "compiler" with
      | none => Except.error .missingField
      | some v => decodeConStr isName v
    let srcs ← match findVal es "sources" with
      | none => Except.ok []
      | some (.arr xs) => decodeList decodePath xs
      | some _ => Except.error .invalidValue
    let deps ← match findVal es "deployments" with
      | none => Except.ok []
      | some (.obj des) => decodeDepEntries des
      | some _ => Except.error .invalidValue
    let out ← match findVal es "output" with
      | none => Except.ok none
      | some .null => Except.ok none
      | some v => (decodeLink v).map some
    pure ⟨comp, srcs, deps, out⟩
  | _ => .error .invalidValue

/-- `Source`: required `link: Link`; `Extra.allow` keeps every other field,
unvalidated, in input order. -/
def decodeSource : Json → Except DecodeError Source
  | .obj es => do
    let l ← match findVal es "link" with
      | none => Except.error .missingField
      | some v => decodeLink v
    pure ⟨l, es.filter (fun e => e.1 != "link")⟩
  | _ => .error .invalidValue

/-- `Compiler`: required `bin: Link`, optional open `settings: dict`;
unknown fields are dropped (default `Extra.ignore`). -/
def decodeCompiler : Json → Except DecodeError Compiler
  | .obj es => do
    let b ← match findVal es "bin" with
      | none => Except.error .missingField
      | some v => decodeLink v
    let st ← match findVal es "settings" with
      | none => Except.ok []
      | some (.obj ses) => Except.ok ses
      | some _ => Except.error .invalidValue
    pure ⟨b, st⟩
  | _ => .error .invalidValue

/-- A typed mapping field `dict[K, V]`: each key is checked with the key
constraint, each value decoded; entry order (Python dict insertion order) is
preserved. -/
def decodeEntries {α : Type} (keyOk : String → Bool)
    (dec : Json → Except DecodeError α) :
    List (String × Json) → Except DecodeError (List (String × α))
  | [] => .ok []
  | (k, v) :: es => do
    if keyOk k then
      let a ← dec v
      let rest ← decodeEntries keyOk dec es
      pure ((k, a) :: rest)
    else Except.error .invalidValue

/-- Python `src.startswith("./")`. -/
def startsDotSlash (s : String) : Bool :=
  match s.data with
  | c1 :: c2 :: _ => c1 = '.' && c2 = '/'
  | _ => false

/-- Python `src.split("/")[0]`: the prefix before the first `/`. -/
def beforeSlash (s : String) : String :=
  String.mk (s.data.takeWhile (fun c => c != '/'))

/-- The `validate_types` root validator, as a predicate on the fully decoded
aggregate: every contract type's `compiler` is a `compilers` key, every
`./`-source is a `sources` key, and every other source contains `/` and its
first segment is a `dependencies` key.  (The `"types" in data` guard of the
Python code always holds once field validation succeeded, since every field
has a default.) -/
def Manifest.validateRefs (m : Manifest) : Bool :=
  m.types.all fun e =>
    hasKey m.compilers e.2.compiler &&
      e.2.sources.all fun s =>
        if startsDotSlash s then hasKey m.sources s
        else s.data.contains '/' && hasKey m.dependencies (beforeSlash s)

/-- The `manifest: Literal["cpack/v1"]` field: required, and only the exact
literal validates. -/
def decodeTagField (es : List (String × Json)) : Except DecodeError String :=
  match findVal es "manifest" with
  | none => .error .missingField
  | some (.str "cpack/v1") => .ok "cpack/v1"
  | some _ => .error .unsupportedTag

/-- The `name: str = ""` field. -/
def decodeNameField (es : List (String × Json)) : Except DecodeError String :=
  match findVal es "name" with
  | none => .ok ""
  | some v => decodeStr v

/-- An open `dict = {}` field (`metadata`). -/
def decodeDictField (es : List (String × Json)) (k : String) :
    Except DecodeError (List (String × Json)) :=
  match findVal es k with
  | none => .ok []
  | some (.obj mes) => .ok mes
  | some _ => .error .invalidValue

/-- A typed `dict[K, V] = {}` field. -/
def decodeMapField {α : Type} (es : List (String × Json)) (k : String)
    (keyOk : String → Bool) (dec : Json → Except DecodeError α) :
    Except DecodeError (List (String × α)) :=
  match findVal es k with
  | none => .ok []
  | some (.obj xs) => decodeEntries keyOk dec xs
  | some _ => .error .invalidValue

/-- The per-field validation pass of `Manifest.parse_obj`: the `Literal`
format tag, then each section, in declaration order. -/
def decodeFields : Json → Except DecodeError Manifest
  | .obj es => do
    let tag ← decodeTagField es
    let nm ← decodeNameField es
    let md ← decodeDictField es "metadata"
    let tys ← decodeMapField es "types" isName decodeContractType
    let srcs ← decodeMapField es "sources" isRelPath decodeSource
    let cps ← decodeMapField es "compilers" isName decodeCompiler
    let deps ← decodeMapField es "dependencies" isName decodeLink
    pure ⟨tag, nm, md, tys, srcs, cps, deps⟩
  | _ => .error .notObject

/-- `decode(document)`: field validation followed by the cross-reference
root validator; the result is the fully decoded immutable manifest. -/
def decodeManifest (j : Json) : Except DecodeError Manifest := do
  let m ← decodeFields j
  if m.validateRefs then pure m else Except.error .assertionFailed

/-! ## Encoding (`Manifest.json`)

`BaseModel.dict`/`json` force `exclude_defaults=True`: a field equal to its
default (`""`, `{}`, `[]`, `None`) is omitted; required fields are always
emitted.  `json.dumps(..., sort_keys=True)` then emits every object's keys
in `sorted` order.  `encodeDoc` is the resulting document: for the
fixed-key objects the sorted key order is written out literally, for the
dynamic mappings `sortPairs` is applied, and raw (unvalidated) values are
canonicalized because `sort_keys` recurses into them. -/

/-- A field emitted only when `emit` holds (`exclude_defaults`). -/
def optField (emit : Bool) (k : String) (v : Json) : List (String × Json) :=
  if emit then [(k, v)] else []

/-- Encoded `Checksum`; both fields are required, so neither is ever
omitted (keys already in sorted order). -/
def Checksum.enc (c : Checksum) : Json :=
  .obj [("algorithm", .str c.algorithm), ("hash", .str c.hash)]

/-- Encoded `Link` (`"checksum" < "uri"`; `checksum` defaults to `None` and
is omitted when absent). -/
def Link.enc (l : Link) : Json :=
  .obj ((match l.checksum with
          | none => []
          | some c => [("checksum", c.enc)]) ++
        [("uri", .str l.uri)])

/-- Encoded `ContractType`
(`"compiler" < "deployments" < "output" < "sources"`); `deployments` keys
are ints, sorted numerically by `sort_keys` and rendered in decimal by
`json.dumps`; `sources` and each address list keep their order. -/
def ContractType.enc (ct : ContractType) : Json :=
  .obj (("compiler", .str ct.compiler) ::
    (optField (!ct.deployments.isEmpty) "deployments"
      (.obj ((sortPairs intLe ct.deployments).map
        (fun e => (intStr e.1, .arr (e.2.map .str))))) ++
    ((match ct.output with
      | none => []
      | some l => [("output", l.enc)]) ++
    optField (!ct.sources.isEmpty) "sources" (.arr (ct.sources.map .str)))))

/-- Encoded `Source`: the declared `link` field and the preserved extra
fields are merged into one object and sorted together. -/
def Source.enc (s : Source) : Json :=
  .obj (sortPairs strLe (("link", s.link.enc) :: canonEntries s.extra))

/-- Encoded `Compiler` (`"bin" < "settings"`; `settings` defaults to `{}`). -/
def Compiler.enc (c : Compiler) : Json :=
  .obj ([("bin", c.bin.enc)] ++
    optField (!c.settings.isEmpty) "settings" (.obj (canonObj c.settings)))

/-- The canonical document of a manifest, as produced by the overridden
`json()` (before the final character rendering): top-level keys in sorted
order `compilers < dependencies < manifest < metadata < name < sources <
types`, default-valued fields omitted, the required `manifest` tag always
present. -/
def Manifest.encodeDoc (m : Manifest) : Json :=
  .obj (optField (!m.compilers.isEmpty) "compilers"
      (.obj ((sortPairs strLe m.compilers).map (fun e => (e.1, e.2.enc)))) ++
    (optField (!m.dependencies.isEmpty) "dependencies"
      (.obj ((sortPairs strLe m.dependencies).map (fun e => (e.1, e.2.enc)))) ++
    (("manifest", .str m.manifest) ::
    (optField (!m.metadata.isEmpty) "metadata" (.obj (canonObj m.metadata)) ++
    (optField (!(m.name == "")) "name" (.str m.name) ++
    (optField (!m.sources.isEmpty) "sources"
      (.obj ((sortPairs strLe m.sources).map (fun e => (e.1, e.2.enc)))) ++
    optField (!m.types.isEmpty) "types"
      (.obj ((sortPairs strLe m.types).map (fun e => (e.1, e.2.enc))))))))))

/-! ## Character rendering (`json.dumps` with `separators=(",", ":")`)

The custom `json()` passes `separators=(",", ":")`, so the rendered text
holds no character beyond the structural tokens and the (escaped) string
contents - in particular no whitespace outside string literals.
`json.dumps` defaults to `ensure_ascii=True`: control and non-ASCII
characters are `\uXXXX`-escaped. -/

/-- Lowercase hex digit. -/
def hexDigitCh (d : Nat) : Char :=
  if d < 10 then Char.ofNat (48 + d) else Char.ofNat (87 + d)

/-- Four lowercase hex digits (`%04x`). -/
def hex4 (n : Nat) : List Char :=
  [hexDigitCh (n / 4096 % 16), hexDigitCh (n / 256 % 16),
   hexDigitCh (n / 16 % 16), hexDigitCh (n % 16)]

/-- Backslash. -/
def bsCh : Char := Char.ofNat 92

/-- Double quote. -/
def quoteCh : Char := Char.ofNat 34

/-- JSON escaping of one character under `ensure_ascii=True`. -/
def escChar (c : Char) : List Char :=
  let n := c.toNat
  if n = 34 then [bsCh, quoteCh]
  else if n = 92 then [bsCh, bsCh]
  else if n = 8 then [bsCh, 'b']
  else if n = 9 then [bsCh, 't']
  else if n = 10 then [bsCh, 'n']
  else if n = 12 then [bsCh, 'f']
  else if n = 13 then [bsCh, 'r']
  else if n < 32 then bsCh :: 'u' :: hex4 n
  else if n < 127 then [c]
  else if n < 65536 then bsCh :: 'u' :: hex4 n
  else bsCh :: 'u' :: hex4 (55296 + (n - 65536) / 1024) ++
    bsCh :: 'u' :: hex4 (56320 + (n - 65536) % 1024)

/-- A JSON string literal. -/
def strLitChars (s : String) : List Char :=
  quoteCh :: s.data.foldr (fun c acc => escChar c ++ acc) [quoteCh]

/-- Left and right curly brace, left and right square bracket. -/
def lbraceCh : Char := Char.ofNat 123

/-- Right curly brace. -/
def rbraceCh : Char := Char.ofNat 125

/-- Left square bracket. -/
def lbrackCh : Char := Char.ofNat 91

/-- Right square bracket. -/
def rbrackCh : Char := Char.ofNat 93

mutual

/-- `json.dumps` rendering with `separators=(",", ":")` (the document is
emitted as-is; `Manifest.encodeDoc` already ordered the keys). -/
def dumpChars : Json → List Char
  | .str s => strLitChars s
  | .num n => intChars n
  | .bool b => if b then "true".data else "false".data
  | .null => "null".data
  | .arr xs => lbrackCh :: dumpArr xs ++ [rbrackCh]
  | .obj es => lbraceCh :: dumpObj es ++ [rbraceCh]

/-- Array elements joined by `,`. -/
def dumpArr : List Json → List Char
  | [] => []
  | [j] => dumpChars j
  | j :: js => dumpChars j ++ ',' :: dumpArr js

/-- Object entries `"key":value` joined by `,`. -/
def dumpObj : List (String × Json) → List Char
  | [] => []
  | [(k, v)] => strLitChars k ++ ':' :: dumpChars v
  | (k, v) :: es => strLitChars k ++ ':' :: dumpChars v ++ ',' :: dumpObj es

end

/-- `encode(manifest)`: the canonical serialized text (as characters). -/
def Manifest.jsonChars (m : Manifest) : List Char := dumpChars m.encodeDoc

/-! ## Validity

`Manifest.validB` holds exactly of the manifests pydantic can represent
after a successful decode: the tag is the literal, all mapping keys satisfy
their constrained-string types and are distinct (Python dict keys), all
values are valid, and the cross-reference invariants hold. -/

/-- Distinctness of mapping keys (a Python `dict` cannot hold duplicates). -/
def noDupKeys {κ ν : Type} [BEq κ] : List (κ × ν) → Bool
  | [] => true
  | (k, _) :: es => !(es.any (fun e => e.1 == k)) && noDupKeys es

/-- A valid `Link` value. -/
def Link.validB (l : Link) : Bool := isUrl l.uri

/-- A valid `ContractType` value. -/
def ContractType.validB (ct : ContractType) : Bool :=
  isName ct.compiler &&
    ct.sources.all (fun s => isRelPath s || isDepPath s) &&
    ct.deployments.all (fun d => d.2.all isAddress) &&
    noDupKeys ct.deployments &&
    (match ct.output with
      | none => true
      | some l => l.validB)

/-- A valid `Source` value (the extra fields are exactly the non-`link`
keys of the decoded object). -/
def Source.validB (s : Source) : Bool :=
  s.link.validB && noDupKeys s.extra && s.extra.all (fun e => e.1 != "link")

/-- A valid `Compiler` value. -/
def Compiler.validB (c : Compiler) : Bool := c.bin.validB

/-- A valid `Manifest` value. -/
def Manifest.validB (m : Manifest) : Bool :=
  m.manifest == "cpack/v1" &&
    m.types.all (fun e => isName e.1 && e.2.validB) && noDupKeys m.types &&
    m.sources.all (fun e => isRelPath e.1 && e.2.validB) && noDupKeys m.sources &&
    m.compilers.all (fun e => isName e.1 && e.2.validB) && noDupKeys m.compilers &&
    m.dependencies.all (fun e => isName e.1 && e.2.validB) &&
    noDupKeys m.dependencies &&
    m.validateRefs

/-! ## Auxiliary notions used by the statements -/

/-- Map over the values of an entry list, keeping keys. -/
def mapVal {κ ν ν' : Type} (f : ν → ν') (l : List (κ × ν)) : List (κ × ν') :=
  l.map (fun e => (e.1, f e.2))

/-- Entry list ordered by `le` on the keys. -/
def KeySorted {κ ν : Type} (le : κ → κ → Bool) (l : List (κ × ν)) : Prop :=
  l.Pairwise (fun p q => le p.1 q.1 = true)

/-- The entries of an object document (`[]` on non-objects). -/
def Json.entriesOf : Json → List (String × Json)
  | .obj es => es
  | _ => []

/-- Adjacent keys in code-point lexicographic order. -/
def strKeysSorted : List (String × Json) → Bool
  | [] => true
  | [_] => true
  | (k1, _) :: (k2, v2) :: es => strLe k1 k2 && strKeysSorted ((k2, v2) :: es)

mutual

/-- The property C2 claims of an encoded document: every object's keys, at
every nesting level, appear in lexicographic order. -/
def lexKeysOk : Json → Bool
  | .str _ => true
  | .num _ => true
  | .bool _ => true
  | .null => true
  | .arr xs => lexKeysOkList xs
  | .obj es => strKeysSorted es && lexKeysOkEntries es

/-- `lexKeysOk` over an array's elements. -/
def lexKeysOkList : List Json → Bool
  | [] => true
  | j :: js => lexKeysOk j && lexKeysOkList js

/-- `lexKeysOk` over an object's values. -/
def lexKeysOkEntries : List (String × Json) → Bool
  | [] => true
  | (_, v) :: es => lexKeysOk v && lexKeysOkEntries es

end

/-- No space character (the only whitespace `json.dumps` ever emits outside
escapes) in a char list. -/
def spaceFreeL (cs : List Char) : Bool := cs.all (fun c => c.toNat != 32)

/-- No whitespace character at all in a char list. -/
def wsFreeL (cs : List Char) : Bool := cs.all (fun c => !c.isWhitespace)

mutual

/-- No string literal (key or value) of the document contains a space. -/
def strsSpaceFree : Json → Bool
  | .str s => spaceFreeL s.data
  | .num _ => true
  | .bool _ => true
  | .null => true
  | .arr xs => strsSpaceFreeList xs
  | .obj es => strsSpaceFreeEntries es

/-- `strsSpaceFree` over an array's elements. -/
def strsSpaceFreeList : List Json → Bool
  | [] => true
  | j :: js => strsSpaceFree j && strsSpaceFreeList js

/-- `strsSpaceFree` over an object's entries (keys included). -/
def strsSpaceFreeEntries : List (String × Json) → Bool
  | [] => true
  | (k, v) :: es => spaceFreeL k.data && strsSpaceFree v && strsSpaceFreeEntries es

end

/-- Modelled from the spec: the path body pattern the spec states,
`[A-Za-z0-9./]*\.[a-z]+` with a one-or-more extension (the source code has
`[a-z]*`).  Used to compare the spec's claimed pattern with the code's. -/
def pathBodySpecPlus (cs : List Char) : Bool :=
  !cs.isEmpty && cs.all pathChar &&
    !(cs.reverse.takeWhile Char.isLower).isEmpty &&
    (cs.reverse.dropWhile Char.isLower).head? == some '.'

/-- Modelled from the spec: `RelPath` per the spec's claimed regex
`^\./[A-Za-z0-9./]*\.[a-z]+$`. -/
def isRelPathSpec (s : String) : Bool :=
  match s.data with
  | c1 :: c2 :: rest => c1 = '.' && c2 = '/' && pathBodySpecPlus rest
  | _ => false

/-- Modelled from the spec: `DepPath` per the spec's claimed regex
`^[A-Za-z0-9./]*\.[a-z]+$`. -/
def isDepPathSpec (s : String) : Bool := pathBodySpecPlus s.data

/-! ## Concrete values used by witnesses and counterexamples -/

/-- A 42-character example address. -/
def exAddr : String := "0x0000000000000000000000000000000000000000"

/-- A concrete valid manifest exercising every section. -/
def c1m : Manifest :=
  ⟨"cpack/v1", "pkg", [("author", .str "x")],
   [("T", ⟨"solc", ["./f.sol", "depA/f.sol"], [(10, [exAddr]), (2, [])],
     some ⟨"ipfs://Qm2", some ⟨"sha256", "ab"⟩⟩⟩)],
   [("./f.sol", ⟨⟨"ipfs://Qm1", none⟩, [("license", .str "MIT")]⟩)],
   [("solc", ⟨⟨"ipfs://Qm3", none⟩, [("opt", .bool true)]⟩)],
   [("depA", ⟨"ipfs://Qm4", none⟩)]⟩

/-- A valid manifest whose `deployments` keys `2` and `10` expose the
numeric (not lexicographic) ordering of integer keys. -/
def c2m : Manifest :=
  ⟨"cpack/v1", "", [],
   [("T", ⟨"solc", [], [(2, []), (10, [])], none⟩)],
   [],
   [("solc", ⟨⟨"ipfs://Qm1", none⟩, []⟩)],
   []⟩

/-- `c2m` with every mapping's insertion order permuted. -/
def c2mPerm : Manifest :=
  ⟨"cpack/v1", "", [],
   [("T", ⟨"solc", [], [(10, []), (2, [])], none⟩)],
   [],
   [("solc", ⟨⟨"ipfs://Qm1", none⟩, []⟩)],
   []⟩

/-- A document whose contract type references compiler `"solc"` while
`compilers` is absent. -/
def c3doc : Json :=
  .obj [("manifest", .str "cpack/v1"),
    ("types", .obj [("T", .obj [("compiler", .str "solc")])])]

/-- A document using dependency path `depA/file.sol` while `dependencies`
only holds the key `depB`. -/
def c4docBad : Json :=
  .obj [("manifest", .str "cpack/v1"),
    ("types", .obj [("T", .obj [("compiler", .str "solc"),
      ("sources", .arr [.str "depA/file.sol"])])]),
    ("compilers", .obj [("solc", .obj [("bin",
      .obj [("uri", .str "ipfs://Qm1")])])]),
    ("dependencies", .obj [("depB", .obj [("uri", .str "ipfs://Qm1")])])]

/-- `c4docBad` with the dependency key renamed to `depA`. -/
def c4docGood : Json :=
  .obj [("manifest", .str "cpack/v1"),
    ("types", .obj [("T", .obj [("compiler", .str "solc"),
      ("sources", .arr [.str "depA/file.sol"])])]),
    ("compilers", .obj [("solc", .obj [("bin",
      .obj [("uri", .str "ipfs://Qm1")])])]),
    ("dependencies", .obj [("depA", .obj [("uri", .str "ipfs://Qm1")])])]

/-- The manifest `c4docGood` decodes to. -/
def c4m : Manifest :=
  ⟨"cpack/v1", "", [],
   [("T", ⟨"solc", ["depA/file.sol"], [], none⟩)],
   [],
   [("solc", ⟨⟨"ipfs://Qm1", none⟩, []⟩)],
   [("depA", ⟨"ipfs://Qm1", none⟩)]⟩

/-- A document with an unrecognized top-level field. -/
def c5doc : Json :=
  .obj [("manifest", .str "cpack/v1"), ("license", .str "MIT")]

/-- The manifest `c5doc` decodes to. -/
def c5m : Manifest := ⟨"cpack/v1", "", [], [], [], [], []⟩

/-! ## Order facts -/

theorem lexLe_total : ∀ as bs : List Char, lexLe as bs = true ∨ lexLe bs as = true
  | [], _ => Or.inl rfl
  | _ :: _, [] => Or.inr rfl
  | a :: as, b :: bs => by
    rcases Nat.lt_trichotomy a.toNat b.toNat with h | h | h
    · left; simp [lexLe, h]
    · have h1 : ¬ a.toNat < b.toNat := by omega
      have h2 : ¬ b.toNat < a.toNat := by omega
      rcases lexLe_total as bs with h3 | h3
      · left; simp [lexLe, h1, h2, h3]
      · right; simp [lexLe, h1, h2, h3]
    · right; simp [lexLe, h]

theorem lexLe_trans : ∀ as bs cs : List Char,
    lexLe as bs = true → lexLe bs cs = true → lexLe as cs = true
  | [], _, _, _, _ => rfl
  | _ :: _, [], _, h1, _ => by simp [lexLe] at h1
  | _ :: _, _ :: _, [], _, h2 => by simp [lexLe] at h2
  | a :: as, b :: bs, c :: cs, h1, h2 => by
    simp only [lexLe] at h1 h2 ⊢
    rcases Nat.lt_trichotomy a.toNat b.toNat with hab | hab | hab
    · rcases Nat.lt_trichotomy b.toNat c.toNat with hbc | hbc | hbc
      · simp [show a.toNat < c.toNat by omega]
      · simp [show a.toNat < c.toNat by omega]
      · rw [if_neg (by omega), if_pos (by omega)] at h2
        exact absurd h2 (by simp)
    · rw [if_neg (by omega), if_neg (by omega)] at h1
      rcases Nat.lt_trichotomy b.toNat c.toNat with hbc | hbc | hbc
      · simp [show a.toNat < c.toNat by omega]
      · rw [if_neg (by omega), if_neg (by omega)] at h2
        rw [if_neg (by omega), if_neg (by omega)]
        exact lexLe_trans as bs cs h1 h2
      · rw [if_neg (by omega), if_pos (by omega)] at h2
        exact absurd h2 (by simp)
    · rw [if_neg (by omega), if_pos (by omega)] at h1
      exact absurd h1 (by simp)

theorem strLe_total (a b : String) : strLe a b = true ∨ strLe b a = true :=
  lexLe_total a.data b.data

theorem strLe_trans (a b c : String) (h1 : strLe a b = true)
    (h2 : strLe b c = true) : strLe a c = true :=
  lexLe_trans a.data b.data c.data h1 h2

theorem intLe_total (a b : Int) : intLe a b = true ∨ intLe b a = true := by
  simp only [intLe, decide_eq_true_eq]; omega

theorem intLe_trans (a b c : Int) (h1 : intLe a b = true)
    (h2 : intLe b c = true) : intLe a c = true := by
  simp only [intLe, decide_eq_true_eq] at *; omega

/-! ## The sorting toolkit -/

section SortToolkit

variable {κ ν ν' : Type} {le : κ → κ → Bool}

theorem insPair_nil (x : κ × ν) : insPair le x [] = [x] := rfl

theorem insPair_cons (x y : κ × ν) (ys : List (κ × ν)) :
    insPair le x (y :: ys) =
      if le x.1 y.1 = true then x :: y :: ys else y :: insPair le x ys := rfl

theorem sortPairs_nil : sortPairs le ([] : List (κ × ν)) = [] := rfl

theorem sortPairs_cons (x : κ × ν) (xs : List (κ × ν)) :
    sortPairs le (x :: xs) = insPair le x (sortPairs le xs) := rfl

theorem insPair_perm (x : κ × ν) :
    ∀ l : List (κ × ν), (insPair le x l).Perm (x :: l)
  | [] => List.Perm.refl _
  | y :: ys => by
    unfold insPair
    by_cases h : le x.1 y.1 = true
    · rw [if_pos h]
    · rw [if_neg h]
      exact ((insPair_perm x ys).cons y).trans (List.Perm.swap x y ys)

theorem sortPairs_perm : ∀ l : List (κ × ν), (sortPairs le l).Perm l
  | [] => List.Perm.refl _
  | x :: xs => (insPair_perm x (sortPairs le xs)).trans ((sortPairs_perm xs).cons x)

theorem mem_insPair {z x : κ × ν} {l : List (κ × ν)} :
    z ∈ insPair le x l ↔ z = x ∨ z ∈ l := by
  rw [(insPair_perm x l).mem_iff, List.mem_cons]

theorem insPair_of_le {x : κ × ν} {l : List (κ × ν)}
    (h : ∀ z ∈ l, le x.1 z.1 = true) : insPair le x l = x :: l := by
  cases l with
  | nil => rfl
  | cons y ys => unfold insPair; rw [if_pos (h y (List.mem_cons_self y ys))]

theorem insPair_sorted
    (htot : ∀ a b : κ, le a b = true ∨ le b a = true)
    (htr : ∀ a b c : κ, le a b = true → le b c = true → le a c = true)
    (x : κ × ν) : ∀ l : List (κ × ν), KeySorted le l → KeySorted le (insPair le x l)
  | [], _ => List.pairwise_cons.mpr ⟨by simp, List.Pairwise.nil⟩
  | y :: ys, hs => by
    obtain ⟨hy, hys⟩ := List.pairwise_cons.mp hs
    unfold insPair
    by_cases h : le x.1 y.1 = true
    · rw [if_pos h]
      refine List.pairwise_cons.mpr ⟨?_, List.pairwise_cons.mpr ⟨hy, hys⟩⟩
      intro z hz
      rcases List.mem_cons.mp hz with rfl | hz'
      · exact h
      · exact htr _ _ _ h (hy z hz')
    · rw [if_neg h]
      refine List.pairwise_cons.mpr ⟨?_, insPair_sorted htot htr x ys hys⟩
      intro z hz
      rcases mem_insPair.mp hz with rfl | hz'
      · rcases htot z.1 y.1 with h' | h'
        · exact absurd h' h
        · exact h'
      · exact hy z hz'

theorem sortPairs_sorted
    (htot : ∀ a b : κ, le a b = true ∨ le b a = true)
    (htr : ∀ a b c : κ, le a b = true → le b c = true → le a c = true) :
    ∀ l : List (κ × ν), KeySorted le (sortPairs le l)
  | [] => List.Pairwise.nil
  | x :: xs => insPair_sorted htot htr x _ (sortPairs_sorted htot htr xs)

theorem sortPairs_of_sorted : ∀ {l : List (κ × ν)}, KeySorted le l → sortPairs le l = l
  | [], _ => rfl
  | x :: xs, hs => by
    obtain ⟨hx, hxs⟩ := List.pairwise_cons.mp hs
    unfold sortPairs
    rw [sortPairs_of_sorted hxs, insPair_of_le hx]

theorem sortPairs_idem
    (htot : ∀ a b : κ, le a b = true ∨ le b a = true)
    (htr : ∀ a b c : κ, le a b = true → le b c = true → le a c = true)
    (l : List (κ × ν)) : sortPairs le (sortPairs le l) = sortPairs le l :=
  sortPairs_of_sorted (sortPairs_sorted htot htr l)

theorem keysOf_mapVal (f : ν → ν') (l : List (κ × ν)) :
    keysOf (mapVal f l) = keysOf l := by
  simp [keysOf, mapVal, List.map_map]

theorem insPair_mapVal (f : ν → ν') (x : κ × ν) :
    ∀ l : List (κ × ν),
      insPair le (x.1, f x.2) (mapVal f l) = mapVal f (insPair le x l)
  | [] => rfl
  | y :: ys => by
    have hm : mapVal f (y :: ys) = (y.1, f y.2) :: mapVal f ys := rfl
    rw [hm, insPair_cons, insPair_cons]
    by_cases h : le x.1 y.1 = true
    · rw [if_pos h, if_pos h]
      rfl
    · rw [if_neg h, if_neg h]
      show _ = mapVal f (y :: insPair le x ys)
      have hm2 : mapVal f (y :: insPair le x ys) =
          (y.1, f y.2) :: mapVal f (insPair le x ys) := rfl
      rw [hm2, insPair_mapVal f x ys]

theorem sortPairs_mapVal (f : ν → ν') :
    ∀ l : List (κ × ν), sortPairs le (mapVal f l) = mapVal f (sortPairs le l)
  | [] => rfl
  | x :: xs => by
    have hm : mapVal f (x :: xs) = (x.1, f x.2) :: mapVal f xs := rfl
    rw [hm, sortPairs_cons, sortPairs_cons, sortPairs_mapVal f xs,
      insPair_mapVal f x]

theorem filter_insPair
    (htot : ∀ a b : κ, le a b = true ∨ le b a = true)
    (htr : ∀ a b c : κ, le a b = true → le b c = true → le a c = true)
    (p : κ × ν → Bool) (x : κ × ν) :
    ∀ l : List (κ × ν), KeySorted le l →
      (insPair le x l).filter p =
        if p x then insPair le x (l.filter p) else l.filter p
  | [], _ => by
    by_cases hpx : p x = true <;> simp [insPair_nil, List.filter, hpx]
  | y :: ys, hs => by
    obtain ⟨hy, hys⟩ := List.pairwise_cons.mp hs
    rw [insPair_cons]
    by_cases h : le x.1 y.1 = true
    · rw [if_pos h]
      have hall : ∀ z ∈ (y :: ys).filter p, le x.1 z.1 = true := by
        intro z hz
        rcases List.mem_cons.mp (List.mem_of_mem_filter hz) with rfl | hz'
        · exact h
        · exact htr _ _ _ h (hy z hz')
      by_cases hpx : p x = true
      · rw [if_pos hpx, insPair_of_le hall]
        simp [List.filter_cons, hpx]
      · rw [if_neg hpx]
        simp [List.filter_cons, hpx]
    · rw [if_neg h]
      have ih := filter_insPair htot htr p x ys hys
      by_cases hpx : p x = true <;> by_cases hpy : p y = true
      · rw [if_pos hpx] at ih ⊢
        rw [List.filter_cons_of_pos hpy, List.filter_cons_of_pos hpy, ih,
          insPair_cons, if_neg h]
      · rw [if_pos hpx] at ih ⊢
        rw [List.filter_cons_of_neg hpy, List.filter_cons_of_neg hpy, ih]
      · rw [if_neg hpx] at ih ⊢
        rw [List.filter_cons_of_pos hpy, List.filter_cons_of_pos hpy, ih]
      · rw [if_neg hpx] at ih ⊢
        rw [List.filter_cons_of_neg hpy, List.filter_cons_of_neg hpy, ih]

theorem filter_sortPairs
    (htot : ∀ a b : κ, le a b = true ∨ le b a = true)
    (htr : ∀ a b c : κ, le a b = true → le b c = true → le a c = true)
    (p : κ × ν → Bool) :
    ∀ l : List (κ × ν), (sortPairs le l).filter p = sortPairs le (l.filter p)
  | [] => rfl
  | x :: xs => by
    rw [sortPairs_cons,
      filter_insPair htot htr p x _ (sortPairs_sorted htot htr xs),
      List.filter_cons]
    by_cases hpx : p x = true
    · rw [if_pos hpx, if_pos hpx, sortPairs_cons,
        filter_sortPairs htot htr p xs]
    · rw [if_neg hpx, if_neg hpx, filter_sortPairs htot htr p xs]

end SortToolkit

/-! ## Membership and lookup utilities -/

theorem any_of_perm {α : Type} {l₁ l₂ : List α} (h : l₁.Perm l₂) (p : α → Bool) :
    l₁.any p = l₂.any p := by
  rw [Bool.eq_iff_iff, List.any_eq_true, List.any_eq_true]
  exact ⟨fun ⟨a, ha, hp⟩ => ⟨a, h.mem_iff.mp ha, hp⟩,
    fun ⟨a, ha, hp⟩ => ⟨a, h.mem_iff.mpr ha, hp⟩⟩

theorem all_of_perm {α : Type} {l₁ l₂ : List α} (h : l₁.Perm l₂) (p : α → Bool) :
    l₁.all p = l₂.all p := by
  rw [Bool.eq_iff_iff, List.all_eq_true, List.all_eq_true]
  exact ⟨fun ha a hx => ha a (h.mem_iff.mpr hx),
    fun ha a hx => ha a (h.mem_iff.mp hx)⟩

theorem hasKey_of_perm {ν : Type} {l₁ l₂ : List (String × ν)}
    (h : l₁.Perm l₂) (k : String) : hasKey l₁ k = hasKey l₂ k :=
  any_of_perm h _

theorem any_map_eq {α β : Type} (f : α → β) (p : β → Bool) :
    ∀ l : List α, (l.map f).any p = l.any (fun a => p (f a))
  | [] => rfl
  | x :: xs => by simp [any_map_eq f p xs]

theorem all_map_eq {α β : Type} (f : α → β) (p : β → Bool) :
    ∀ l : List α, (l.map f).all p = l.all (fun a => p (f a))
  | [] => rfl
  | x :: xs => by simp [all_map_eq f p xs]

theorem hasKey_mapVal {ν ν' : Type} (f : ν → ν') (l : List (String × ν))
    (k : String) : hasKey (mapVal f l) k = hasKey l k := by
  rw [hasKey, mapVal, any_map_eq]
  rfl

theorem anyKey_eq_keysOf {κ ν : Type} [BEq κ] (l : List (κ × ν)) (k : κ) :
    l.any (fun e => e.1 == k) = (keysOf l).any (fun x => x == k) := by
  rw [keysOf, any_map_eq]

theorem noDupKeys_eq_of_keysOf {κ ν ν' : Type} [BEq κ] :
    ∀ (l₁ : List (κ × ν)) (l₂ : List (κ × ν')),
      keysOf l₁ = keysOf l₂ → noDupKeys l₁ = noDupKeys l₂
  | [], [], _ => rfl
  | [], (_, _) :: _, h => by simp [keysOf] at h
  | (_, _) :: _, [], h => by simp [keysOf] at h
  | (k1, v1) :: es1, (k2, v2) :: es2, h => by
    have hk : k1 = k2 := by simpa [keysOf] using congrArg (fun l => l.head?) h
    have ht : keysOf es1 = keysOf es2 := by
      simpa [keysOf] using congrArg (fun l => l.tail) h
    show (!es1.any (fun e => e.1 == k1) && noDupKeys es1) =
      (!es2.any (fun e => e.1 == k2) && noDupKeys es2)
    rw [anyKey_eq_keysOf, anyKey_eq_keysOf, ht, hk,
      noDupKeys_eq_of_keysOf es1 es2 ht]

theorem keysOf_canonEntries (es : List (String × Json)) :
    keysOf (canonEntries es) = keysOf es := by
  induction es with
  | nil => rfl
  | cons e es ih =>
    obtain ⟨k, v⟩ := e
    simp [canonEntries, keysOf] at ih ⊢
    exact ih

theorem findVal_append (a b : List (String × Json)) (k : String) :
    findVal (a ++ b) k = (findVal a k).or (findVal b k) := by
  induction a with
  | nil => simp [findVal]
  | cons e es ih =>
    obtain ⟨k', v⟩ := e
    by_cases h : k' = k
    · simp [findVal, h]
    · simp [findVal, h, ih]

theorem findVal_optField_self (e : Bool) (k : String) (v : Json) :
    findVal (optField e k v) k = if e then some v else none := by
  cases e <;> simp [optField, findVal]

theorem findVal_optField_ne (e : Bool) (k : String) (v : Json) (k' : String)
    (h : k ≠ k') : findVal (optField e k v) k' = none := by
  cases e <;> simp [optField, findVal, h]

theorem findVal_eq_none_iff (l : List (String × Json)) (k : String) :
    findVal l k = none ↔ hasKey l k = false := by
  induction l with
  | nil => simp [findVal, hasKey]
  | cons e es ih =>
    obtain ⟨k', v⟩ := e
    by_cases h : k' = k
    · simp [findVal, hasKey, h]
    · simp [findVal, hasKey, h, ih]

theorem findVal_mem {l : List (String × Json)} {k : String} {v : Json}
    (h : findVal l k = some v) : (k, v) ∈ l := by
  induction l with
  | nil => simp [findVal] at h
  | cons e es ih =>
    obtain ⟨k', v'⟩ := e
    by_cases h' : k' = k
    · rw [findVal, if_pos h'] at h
      subst h'
      cases h
      exact List.mem_cons_self _ _
    · rw [findVal, if_neg h'] at h
      exact List.mem_cons_of_mem _ (ih h)

theorem mem_findVal {l : List (String × Json)} {k : String} {v : Json}
    (hnd : noDupKeys l = true) (hm : (k, v) ∈ l) : findVal l k = some v := by
  induction l with
  | nil => simp at hm
  | cons e es ih =>
    obtain ⟨k', v'⟩ := e
    have hnd' : (!es.any (fun e => e.1 == k')) = true ∧ noDupKeys es = true := by
      simpa [noDupKeys, Bool.and_eq_true] using hnd
    rcases List.mem_cons.mp hm with heq | hm'
    · cases heq
      simp [findVal]
    · by_cases h' : k' = k
      · exfalso
        subst h'
        have : es.any (fun e => e.1 == k') = true :=
          List.any_eq_true.mpr ⟨(k', v), hm', by simp⟩
        simp [this] at hnd'
      · rw [findVal, if_neg h']
        exact ih hnd'.2 hm'

theorem findVal_sortPairs {l : List (String × Json)} (hnd : noDupKeys l = true)
    (k : String) : findVal (sortPairs strLe l) k = findVal l k := by
  cases o : findVal (sortPairs strLe l) k with
  | none =>
    rw [findVal_eq_none_iff] at o
    rw [hasKey_of_perm (sortPairs_perm l) k] at o
    exact ((findVal_eq_none_iff l k).mpr o).symm
  | some v =>
    exact (mem_findVal hnd ((sortPairs_perm l).mem_iff.mp (findVal_mem o))).symm

/-! ## Canonicalization lemmas -/

theorem canonEntries_eq_mapVal : ∀ es : List (String × Json),
    canonEntries es = mapVal canonJson es
  | [] => rfl
  | (k, v) :: es => by
    simp [canonEntries, mapVal, canonEntries_eq_mapVal es]

theorem canonList_eq_map : ∀ xs : List Json, canonList xs = xs.map canonJson
  | [] => rfl
  | j :: js => by simp [canonList, canonList_eq_map js]

theorem canonEntries_sortPairs (l : List (String × Json)) :
    canonEntries (sortPairs strLe l) = sortPairs strLe (canonEntries l) := by
  rw [canonEntries_eq_mapVal, canonEntries_eq_mapVal, sortPairs_mapVal]

mutual

theorem canonJson_idem : ∀ j : Json, canonJson (canonJson j) = canonJson j
  | .str _ => rfl
  | .num _ => rfl
  | .bool _ => rfl
  | .null => rfl
  | .arr xs => by
    simp only [canonJson]
    rw [canonList_idem xs]
  | .obj es => by
    simp only [canonJson]
    rw [canonEntries_sortPairs, canonEntries_idem es,
      sortPairs_idem strLe_total strLe_trans]

theorem canonList_idem : ∀ xs : List Json, canonList (canonList xs) = canonList xs
  | [] => rfl
  | j :: js => by
    simp only [canonList]
    rw [canonJson_idem j, canonList_idem js]

theorem canonEntries_idem : ∀ es : List (String × Json),
    canonEntries (canonEntries es) = canonEntries es
  | [] => rfl
  | (k, v) :: es => by
    simp only [canonEntries]
    rw [canonJson_idem v, canonEntries_idem es]

end

theorem canonObj_idem (es : List (String × Json)) :
    canonObj (canonObj es) = canonObj es := by
  rw [canonObj, canonObj, canonEntries_sortPairs, canonEntries_idem,
    sortPairs_idem strLe_total strLe_trans]

/-! ## Integer rendering and parsing -/

theorem digitCh_spec (d : Nat) (h : d < 10) :
    (digitCh d).isDigit = true ∧ (digitCh d).toNat = 48 + d := by
  interval_cases d <;> exact ⟨rfl, rfl⟩

theorem natCharsAux_spec : ∀ fuel n, n < fuel →
    natCharsAux fuel n ≠ [] ∧ (natCharsAux fuel n).all Char.isDigit = true ∧
      (natCharsAux fuel n).foldl (fun a c => a * 10 + (c.toNat - 48)) 0 = n
  | 0, n, h => absurd h (by omega)
  | fuel + 1, n, h => by
    by_cases h10 : n < 10
    · rw [natCharsAux, if_pos h10]
      obtain ⟨hd, ht⟩ := digitCh_spec n h10
      refine ⟨by simp, by simp [hd], ?_⟩
      simp only [List.foldl, ht]
      omega
    · rw [natCharsAux, if_neg h10]
      have hlt : n / 10 < fuel := by
        have hds : n / 10 < n := Nat.div_lt_self (by omega) (by omega)
        omega
      obtain ⟨ih1, ih2, ih3⟩ := natCharsAux_spec fuel (n / 10) hlt
      obtain ⟨hd, ht⟩ := digitCh_spec (n % 10) (by omega)
      refine ⟨by simp, ?_, ?_⟩
      · rw [List.all_append]
        simp [ih2, hd]
      · rw [List.foldl_append, ih3]
        simp [ht]
        omega

theorem natChars_spec (n : Nat) :
    natChars n ≠ [] ∧ (natChars n).all Char.isDigit = true ∧
      (natChars n).foldl (fun a c => a * 10 + (c.toNat - 48)) 0 = n :=
  natCharsAux_spec (n + 1) n (by omega)

theorem isDigit_toNat {c : Char} (h : c.isDigit = true) :
    48 ≤ c.toNat ∧ c.toNat ≤ 57 := by
  simp [Char.isDigit, UInt32.le_def, BitVec.le_def] at h
  exact h

theorem pyWs_of_isDigit {c : Char} (h : c.isDigit = true) : pyWs c = false := by
  obtain ⟨h1, h2⟩ := isDigit_toNat h
  simp [pyWs]
  omega

theorem digitsVal_digits : ∀ (cs : List Char) (a : Nat),
    cs.all Char.isDigit = true →
    digitsVal a cs = some (cs.foldl (fun x c => x * 10 + (c.toNat - 48)) a)
  | [], _, _ => rfl
  | c :: rest, a, h => by
    have hc : c.isDigit = true ∧ rest.all Char.isDigit = true := by
      simpa [List.all_cons] using h
    rw [digitsVal, if_pos hc.1, digitsVal_digits rest _ hc.2]
    rfl

theorem parseDigits_natChars (n : Nat) : parseDigits (natChars n) = some n := by
  obtain ⟨h1, h2, h3⟩ := natChars_spec n
  cases hc : natChars n with
  | nil => exact absurd hc h1
  | cons c cs =>
    rw [hc] at h2 h3
    have hcd : c.isDigit = true ∧ cs.all Char.isDigit = true := by
      simpa [List.all_cons] using h2
    rw [parseDigits, if_pos hcd.1, digitsVal_digits cs _ hcd.2]
    rw [← h3]
    simp [List.foldl_cons]

theorem pyIntCore_natChars (n : Nat) : pyIntCore (natChars n) = some (n : Int) := by
  obtain ⟨h1, h2, _⟩ := natChars_spec n
  cases hc : natChars n with
  | nil => exact absurd hc h1
  | cons c cs =>
    have hdig : c.isDigit = true := by
      rw [hc] at h2
      exact (List.all_eq_true.mp h2 c (List.mem_cons_self c cs))
    have hm : ¬ c = '-' := by
      intro he
      rw [he] at hdig
      simp [Char.isDigit] at hdig
    have hp : ¬ c = '+' := by
      intro he
      rw [he] at hdig
      simp [Char.isDigit] at hdig
    rw [pyIntCore, if_neg hm, if_neg hp, ← hc, parseDigits_natChars]
    rfl

theorem dropWhile_all_false {p : Char → Bool} (cs : List Char)
    (h : cs.all (fun c => !p c) = true) : cs.dropWhile p = cs := by
  cases cs with
  | nil => rfl
  | cons c cs =>
    have hc : p c = false := by
      have := (List.all_eq_true.mp h) c (List.mem_cons_self c cs)
      simpa using this
    rw [List.dropWhile_cons, if_neg (by simp [hc])]

theorem stripWs_of_all (cs : List Char)
    (h : cs.all (fun c => !pyWs c) = true) : stripWs cs = cs := by
  rw [stripWs, dropWhile_all_false cs h,
    dropWhile_all_false cs.reverse
      (by rw [all_of_perm (List.reverse_perm cs)]; exact h),
    List.reverse_reverse]

theorem intChars_no_ws (i : Int) :
    (intChars i).all (fun c => !pyWs c) = true := by
  have hdig : ∀ cs : List Char, cs.all Char.isDigit = true →
      cs.all (fun c => !pyWs c) = true := by
    intro cs hcs
    rw [List.all_eq_true] at hcs ⊢
    intro c hcmem
    simp [pyWs_of_isDigit (hcs c hcmem)]
  rw [intChars]
  by_cases h : i < 0
  · rw [if_pos h]
    rw [List.all_cons]
    simp only [hdig _ (natChars_spec i.natAbs).2.1]
    decide
  · rw [if_neg h]
    exact hdig _ (natChars_spec i.natAbs).2.1

theorem pyInt_intStr (i : Int) : pyInt (intStr i) = some i := by
  show pyIntChars (intChars i) = some i
  rw [pyIntChars, stripWs_of_all _ (intChars_no_ws i)]
  by_cases h : i < 0
  · rw [intChars, if_pos h]
    have h1 : natChars i.natAbs ≠ [] := (natChars_spec i.natAbs).1
    cases hc : natChars i.natAbs with
    | nil => exact absurd hc h1
    | cons c cs =>
      rw [pyIntCore, if_pos rfl, ← hc, parseDigits_natChars]
      have habs : ((i.natAbs : Nat) : Int) = -i :=
        Int.ofNat_natAbs_of_nonpos (le_of_lt h)
      simp [habs]
  · rw [intChars, if_neg h, pyIntCore_natChars]
    rw [Int.natAbs_of_nonneg (not_lt.mp h)]

/-! ## Decoding the encoded components -/

theorem ebind_ok {α β : Type} (a : α) (f : α → Except DecodeError β) :
    (Except.ok a >>= f : Except DecodeError β) = f a := rfl

theorem ebind_pure {α β : Type} (a : α) (f : α → Except DecodeError β) :
    ((pure a : Except DecodeError α) >>= f) = f a := rfl

theorem ebind_error {α β : Type} (e : DecodeError)
    (f : α → Except DecodeError β) :
    (Except.error e >>= f : Except DecodeError β) = Except.error e := rfl

theorem decodeStr_str (s : String) : decodeStr (.str s) = .ok s := rfl

theorem decodeConStr_str {chk : String → Bool} {s : String} (h : chk s = true) :
    decodeConStr chk (.str s) = .ok s := by
  simp [decodeConStr, decodeStr_str, ebind_ok, h]
  rfl

theorem decodeList_strs {chk : String → Bool} :
    ∀ as : List String, (∀ a ∈ as, chk a = true) →
      decodeList (decodeConStr chk) (as.map .str) = .ok as
  | [], _ => rfl
  | a :: as, h => by
    have ha : chk a = true := h a (List.mem_cons_self a as)
    have has : ∀ x ∈ as, chk x = true :=
      fun x hx => h x (List.mem_cons_of_mem a hx)
    simp only [List.map_cons, decodeList, decodeConStr_str ha, ebind_ok,
      decodeList_strs as has]
    rfl

theorem decodeChecksum_enc (c : Checksum) : decodeChecksum c.enc = .ok c := rfl

theorem decodeLink_enc {l : Link} (h : l.validB = true) :
    decodeLink l.enc = .ok l := by
  obtain ⟨u, cs⟩ := l
  have hu : isUrl u = true := h
  cases cs with
  | none =>
    show decodeLink (.obj [("uri", .str u)]) = _
    simp [decodeLink, findVal, decodeConStr_str hu, ebind_ok]
  | some c =>
    show decodeLink (.obj (("checksum", c.enc) :: [("uri", .str u)])) = _
    have he : ∃ es, c.enc = .obj es := ⟨_, rfl⟩
    obtain ⟨es, hes⟩ := he
    simp [decodeLink, findVal, decodeConStr_str hu, ebind_ok, hes]
    rw [← hes, decodeChecksum_enc c]
    rfl

theorem decodeDepEntries_enc :
    ∀ l : List (Int × List String),
      (∀ p ∈ l, p.2.all isAddress = true) →
      decodeDepEntries
        (l.map (fun p => (intStr p.1, Json.arr (p.2.map .str)))) = .ok l
  | [], _ => rfl
  | (n, as) :: l, h => by
    have has : ∀ a ∈ as, isAddress a = true := by
      have := h (n, as) (List.mem_cons_self _ _)
      simpa [List.all_eq_true] using this
    have hl : ∀ p ∈ l, p.2.all isAddress = true :=
      fun p hp => h p (List.mem_cons_of_mem _ hp)
    simp only [List.map_cons, decodeDepEntries, pyInt_intStr, ebind_ok,
      decodeList_strs as has, decodeDepEntries_enc l hl]
    rfl

theorem decodeList_paths (as : List String)
    (h : ∀ a ∈ as, (isRelPath a || isDepPath a) = true) :
    decodeList decodePath (as.map .str) = .ok as :=
  decodeList_strs as h

theorem hasKey_eq_false_of_all_ne {ν : Type} {l : List (String × ν)}
    {k : String} (h : l.all (fun e => e.1 != k) = true) : hasKey l k = false := by
  cases ha : hasKey l k
  · rfl
  · obtain ⟨e, hm, he⟩ := List.any_eq_true.mp ha
    have := List.all_eq_true.mp h e hm
    simp at he this
    exact absurd he this

theorem decodeCompiler_enc {c : Compiler} (h : c.validB = true) :
    decodeCompiler c.enc = .ok c.canon := by
  obtain ⟨b, st⟩ := c
  have hb : b.validB = true := h
  have hbe : ∃ es, b.enc = Json.obj es := ⟨_, rfl⟩
  obtain ⟨es, hes⟩ := hbe
  cases st with
  | nil =>
    show decodeCompiler (.obj ([("bin", b.enc)] ++ [])) = .ok ⟨b, canonObj []⟩
    simp [decodeCompiler, findVal, hes, ebind_ok]
    rw [← hes, decodeLink_enc hb]
    rfl
  | cons e es' =>
    show decodeCompiler
        (.obj ([("bin", b.enc)] ++
          [("settings", .obj (canonObj (e :: es')))])) = .ok ⟨b, canonObj (e :: es')⟩
    simp [decodeCompiler, findVal, hes, ebind_ok]
    rw [← hes, decodeLink_enc hb]
    rfl

theorem decodeSource_enc {s : Source} (h : s.validB = true) :
    decodeSource s.enc = .ok s.canon := by
  obtain ⟨l, extra⟩ := s
  have hl : l.validB = true := by
    simp [Source.validB, Bool.and_eq_true] at h
    exact h.1.1
  have hnd : noDupKeys extra = true := by
    simp [Source.validB, Bool.and_eq_true] at h
    exact h.1.2
  have hne : extra.all (fun e => e.1 != "link") = true := by
    simp only [Source.validB, Bool.and_eq_true] at h
    exact h.2
  have hknd : noDupKeys (("link", l.enc) :: canonEntries extra) = true := by
    have h1 : (canonEntries extra).any (fun e => e.1 == "link") = false := by
      rw [canonEntries_eq_mapVal]
      rw [show ((mapVal canonJson extra).any fun e => e.1 == "link") =
        hasKey (mapVal canonJson extra) "link" from rfl]
      rw [hasKey_mapVal]
      exact hasKey_eq_false_of_all_ne hne
    have h2 : noDupKeys (canonEntries extra) = true := by
      rw [noDupKeys_eq_of_keysOf (canonEntries extra) extra (keysOf_canonEntries extra)]
      exact hnd
    show (!(canonEntries extra).any (fun e => e.1 == "link") &&
      noDupKeys (canonEntries extra)) = true
    rw [h1, h2]
    rfl
  show decodeSource (.obj (sortPairs strLe (("link", l.enc) :: canonEntries extra))) = _
  have hfind : findVal (sortPairs strLe (("link", l.enc) :: canonEntries extra)) "link" =
      some l.enc := by
    rw [findVal_sortPairs hknd]
    simp [findVal]
  have hfilter : (sortPairs strLe (("link", l.enc) :: canonEntries extra)).filter
      (fun e => e.1 != "link") = canonObj extra := by
    rw [filter_sortPairs strLe_total strLe_trans]
    have hstep : (("link", l.enc) :: canonEntries extra).filter
        (fun e => e.1 != "link") = canonEntries extra := by
      rw [List.filter_cons_of_neg (by simp)]
      rw [List.filter_eq_self.mpr]
      intro a ha
      have hk : keysOf (canonEntries extra) = keysOf extra := keysOf_canonEntries extra
      have : (canonEntries extra).all (fun e => e.1 != "link") = true := by
        rw [canonEntries_eq_mapVal, mapVal, all_map_eq]
        exact hne
      exact List.all_eq_true.mp this a ha
    rw [hstep, canonObj]
  simp only [decodeSource, hfind, decodeLink_enc hl, ebind_ok, hfilter]
  rfl

theorem decodeContractType_enc {ct : ContractType} (h : ct.validB = true) :
    decodeContractType ct.enc = .ok ct.canon := by
  obtain ⟨comp, srcs, deps, out⟩ := ct
  simp only [ContractType.validB, Bool.and_eq_true] at h
  obtain ⟨⟨⟨⟨hname, hsrcs⟩, haddr⟩, hnd⟩, hout⟩ := h
  have hsrcs' : ∀ a ∈ srcs, (isRelPath a || isDepPath a) = true :=
    List.all_eq_true.mp hsrcs
  have haddr' : ∀ p ∈ sortPairs intLe deps, p.2.all isAddress = true := by
    intro p hp
    exact List.all_eq_true.mp
      (all_of_perm (sortPairs_perm deps) _ ▸ haddr) p hp
  have hdepdec : decodeDepEntries
      ((sortPairs intLe deps).map (fun p => (intStr p.1, Json.arr (p.2.map .str)))) =
      .ok (sortPairs intLe deps) := decodeDepEntries_enc _ haddr'
  have hsrcdec : decodeList decodePath (srcs.map .str) = .ok srcs :=
    decodeList_paths srcs hsrcs'
  cases out with
  | none =>
    cases srcs with
    | nil =>
      cases deps with
      | nil =>
        simp [ContractType.enc, ContractType.canon, optField,
          decodeContractType, findVal, decodeConStr_str hname, ebind_ok,
          sortPairs_nil]
      | cons d ds =>
        simp [ContractType.enc, ContractType.canon, optField,
          decodeContractType, findVal, decodeConStr_str hname, ebind_ok,
          hdepdec]
    | cons s ss =>
      simp only [List.map_cons] at hsrcdec
      cases deps with
      | nil =>
        simp [ContractType.enc, ContractType.canon, optField,
          decodeContractType, findVal, decodeConStr_str hname, ebind_ok,
          hsrcdec, sortPairs_nil]
      | cons d ds =>
        simp [ContractType.enc, ContractType.canon, optField,
          decodeContractType, findVal, decodeConStr_str hname, ebind_ok,
          hsrcdec, hdepdec]
  | some lk =>
    have hlk : lk.validB = true := hout
    have hlke : ∃ les, lk.enc = Json.obj les := ⟨_, rfl⟩
    obtain ⟨les, hles⟩ := hlke
    cases srcs with
    | nil =>
      cases deps with
      | nil =>
        simp [ContractType.enc, ContractType.canon, optField,
          decodeContractType, findVal, decodeConStr_str hname, ebind_ok,
          sortPairs_nil, hles]
        rw [← hles, decodeLink_enc hlk]
        rfl
      | cons d ds =>
        simp [ContractType.enc, ContractType.canon, optField,
          decodeContractType, findVal, decodeConStr_str hname, ebind_ok,
          hdepdec, hles]
        rw [← hles, decodeLink_enc hlk]
        rfl
    | cons s ss =>
      simp only [List.map_cons] at hsrcdec
      cases deps with
      | nil =>
        simp [ContractType.enc, ContractType.canon, optField,
          decodeContractType, findVal, decodeConStr_str hname, ebind_ok,
          hsrcdec, sortPairs_nil, hles]
        rw [← hles, decodeLink_enc hlk]
        rfl
      | cons d ds =>
        simp [ContractType.enc, ContractType.canon, optField,
          decodeContractType, findVal, decodeConStr_str hname, ebind_ok,
          hsrcdec, hdepdec, hles]
        rw [← hles, decodeLink_enc hlk]
        rfl

theorem findVal_cons_ne (k : String) (v : Json) (rest : List (String × Json))
    (k' : String) (h : ¬ k = k') : findVal ((k, v) :: rest) k' = findVal rest k' := by
  simp [findVal, h]

theorem findVal_optField_append_ne (e : Bool) (k : String) (v : Json)
    (rest : List (String × Json)) (k' : String) (h : ¬ k = k') :
    findVal (optField e k v ++ rest) k' = findVal rest k' := by
  cases e <;> simp [optField, findVal, h]

theorem findVal_optField_append_self (e : Bool) (k : String) (v : Json)
    (rest : List (String × Json)) :
    findVal (optField e k v ++ rest) k = if e then some v else findVal rest k := by
  cases e <;> simp [optField, findVal]

theorem findVal_encodeDoc_compilers (m : Manifest) :
    findVal (Json.entriesOf m.encodeDoc) "compilers" =
      if !m.compilers.isEmpty then
        some (.obj ((sortPairs strLe m.compilers).map (fun e => (e.1, e.2.enc))))
      else none := by
  simp only [Manifest.encodeDoc, Json.entriesOf]
  rw [findVal_optField_append_self]
  cases hc : !m.compilers.isEmpty <;> simp
  rw [findVal_optField_append_ne _ _ _ _ _ (by decide),
    findVal_cons_ne _ _ _ _ (by decide),
    findVal_optField_append_ne _ _ _ _ _ (by decide),
    findVal_optField_append_ne _ _ _ _ _ (by decide),
    findVal_optField_append_ne _ _ _ _ _ (by decide),
    findVal_optField_ne _ _ _ _ (by decide)]

theorem findVal_encodeDoc_dependencies (m : Manifest) :
    findVal (Json.entriesOf m.encodeDoc) "dependencies" =
      if !m.dependencies.isEmpty then
        some (.obj ((sortPairs strLe m.dependencies).map (fun e => (e.1, e.2.enc))))
      else none := by
  simp only [Manifest.encodeDoc, Json.entriesOf]
  rw [findVal_optField_append_ne _ _ _ _ _ (by decide),
    findVal_optField_append_self]
  cases hc : !m.dependencies.isEmpty <;> simp
  rw [findVal_cons_ne _ _ _ _ (by decide),
    findVal_optField_append_ne _ _ _ _ _ (by decide),
    findVal_optField_append_ne _ _ _ _ _ (by decide),
    findVal_optField_append_ne _ _ _ _ _ (by decide),
    findVal_optField_ne _ _ _ _ (by decide)]

theorem findVal_encodeDoc_manifest (m : Manifest) :
    findVal (Json.entriesOf m.encodeDoc) "manifest" = some (.str m.manifest) := by
  simp only [Manifest.encodeDoc, Json.entriesOf]
  rw [findVal_optField_append_ne _ _ _ _ _ (by decide),
    findVal_optField_append_ne _ _ _ _ _ (by decide)]
  simp [findVal]

theorem findVal_encodeDoc_metadata (m : Manifest) :
    findVal (Json.entriesOf m.encodeDoc) "metadata" =
      if !m.metadata.isEmpty then some (.obj (canonObj m.metadata)) else none := by
  simp only [Manifest.encodeDoc, Json.entriesOf]
  rw [findVal_optField_append_ne _ _ _ _ _ (by decide),
    findVal_optField_append_ne _ _ _ _ _ (by decide),
    findVal_cons_ne _ _ _ _ (by decide),
    findVal_optField_append_self]
  cases hc : !m.metadata.isEmpty <;> simp
  rw [findVal_optField_append_ne _ _ _ _ _ (by decide),
    findVal_optField_append_ne _ _ _ _ _ (by decide),
    findVal_optField_ne _ _ _ _ (by decide)]

theorem findVal_encodeDoc_name (m : Manifest) :
    findVal (Json.entriesOf m.encodeDoc) "name" =
      if !(m.name == "") then some (.str m.name) else none := by
  simp only [Manifest.encodeDoc, Json.entriesOf]
  rw [findVal_optField_append_ne _ _ _ _ _ (by decide),
    findVal_optField_append_ne _ _ _ _ _ (by decide),
    findVal_cons_ne _ _ _ _ (by decide),
    findVal_optField_append_ne _ _ _ _ _ (by decide),
    findVal_optField_append_self]
  cases hc : !(m.name == "") <;> simp
  rw [findVal_optField_append_ne _ _ _ _ _ (by decide),
    findVal_optField_ne _ _ _ _ (by decide)]

theorem findVal_encodeDoc_sources (m : Manifest) :
    findVal (Json.entriesOf m.encodeDoc) "sources" =
      if !m.sources.isEmpty then
        some (.obj ((sortPairs strLe m.sources).map (fun e => (e.1, e.2.enc))))
      else none := by
  simp only [Manifest.encodeDoc, Json.entriesOf]
  rw [findVal_optField_append_ne _ _ _ _ _ (by decide),
    findVal_optField_append_ne _ _ _ _ _ (by decide),
    findVal_cons_ne _ _ _ _ (by decide),
    findVal_optField_append_ne _ _ _ _ _ (by decide),
    findVal_optField_append_ne _ _ _ _ _ (by decide),
    findVal_optField_append_self]
  cases hc : !m.sources.isEmpty <;> simp
  rw [findVal_optField_ne _ _ _ _ (by decide)]

theorem findVal_encodeDoc_types (m : Manifest) :
    findVal (Json.entriesOf m.encodeDoc) "types" =
      if !m.types.isEmpty then
        some (.obj ((sortPairs strLe m.types).map (fun e => (e.1, e.2.enc))))
      else none := by
  simp only [Manifest.encodeDoc, Json.entriesOf]
  rw [findVal_optField_append_ne _ _ _ _ _ (by decide),
    findVal_optField_append_ne _ _ _ _ _ (by decide),
    findVal_cons_ne _ _ _ _ (by decide),
    findVal_optField_append_ne _ _ _ _ _ (by decide),
    findVal_optField_append_ne _ _ _ _ _ (by decide),
    findVal_optField_append_ne _ _ _ _ _ (by decide),
    findVal_optField_self]

theorem decodeEntries_map {α β : Type} (keyOk : String → Bool)
    (dec : Json → Except DecodeError α) (enc : β → Json) (f : β → α) :
    ∀ l : List (String × β),
      (∀ p ∈ l, keyOk p.1 = true ∧ dec (enc p.2) = .ok (f p.2)) →
      decodeEntries keyOk dec (l.map (fun e => (e.1, enc e.2))) =
        .ok (l.map (fun e => (e.1, f e.2)))
  | [], _ => rfl
  | (k, v) :: l, h => by
    obtain ⟨hk, hv⟩ := h (k, v) (List.mem_cons_self _ _)
    have hl : ∀ p ∈ l, keyOk p.1 = true ∧ dec (enc p.2) = .ok (f p.2) :=
      fun p hp => h p (List.mem_cons_of_mem _ hp)
    simp only [List.map_cons, decodeEntries, hk, if_pos, hv, ebind_ok,
      decodeEntries_map keyOk dec enc f l hl]
    rfl

/-! ## The root validator on the canonical form -/

theorem all_congr_fn {α : Type} :
    ∀ (xs : List α) (f g : α → Bool),
      (∀ y ∈ xs, f y = g y) → xs.all f = xs.all g
  | [], _, _, _ => rfl
  | x :: xs, f, g, hfg => by
    simp only [List.all_cons]
    rw [hfg x (List.mem_cons_self x xs),
      all_congr_fn xs f g (fun y hy => hfg y (List.mem_cons_of_mem x hy))]

theorem hasKey_canonMap {ν : Type} (canonF : ν → ν) (l : List (String × ν))
    (k : String) :
    hasKey ((sortPairs strLe l).map (fun e => (e.1, canonF e.2))) k =
      hasKey l k := by
  rw [show ((sortPairs strLe l).map (fun e => (e.1, canonF e.2))) =
      mapVal canonF (sortPairs strLe l) from rfl,
    hasKey_mapVal, hasKey_of_perm (sortPairs_perm l)]

theorem validateRefs_canon (m : Manifest) :
    m.canon.validateRefs = m.validateRefs := by
  rw [Manifest.validateRefs, Manifest.validateRefs]
  show ((sortPairs strLe m.types).map (fun e => (e.1, e.2.canon))).all _ = _
  rw [show ((sortPairs strLe m.types).map (fun e => (e.1, e.2.canon))) =
    mapVal ContractType.canon (sortPairs strLe m.types) from rfl]
  rw [mapVal, all_map_eq, all_of_perm (sortPairs_perm m.types)]
  apply all_congr_fn
  intro e _
  have hcomp : (ContractType.canon e.2).compiler = e.2.compiler := rfl
  have hsrcs : (ContractType.canon e.2).sources = e.2.sources := rfl
  rw [hcomp, hsrcs]
  congr 1
  · show hasKey m.canon.compilers e.2.compiler = _
    exact hasKey_canonMap _ m.compilers _
  · apply all_congr_fn
    intro s _
    by_cases hss : startsDotSlash s = true
    · rw [if_pos hss, if_pos hss]
      show hasKey m.canon.sources s = _
      exact hasKey_canonMap _ m.sources _
    · rw [if_neg hss, if_neg hss]
      congr 1
      show hasKey m.canon.dependencies _ = _
      exact hasKey_of_perm (sortPairs_perm m.dependencies) _

/-! ## The round trip -/

theorem decodeManifest_encodeDoc {m : Manifest} (h : m.validB = true) :
    decodeManifest m.encodeDoc = .ok m.canon := by
  have hv := h
  simp only [Manifest.validB, Bool.and_eq_true] at hv
  obtain ⟨⟨⟨⟨⟨⟨⟨⟨⟨htag, htys⟩, _⟩, hsrc⟩, _⟩, hcps⟩, _⟩, hdeps⟩, _⟩, hrefs⟩ := hv
  have htag' : m.manifest = "cpack/v1" := by simpa using htag
  have htydec : decodeEntries isName decodeContractType
      ((sortPairs strLe m.types).map (fun e => (e.1, e.2.enc))) =
      .ok ((sortPairs strLe m.types).map (fun e => (e.1, e.2.canon))) := by
    refine decodeEntries_map isName decodeContractType _ _ _ (fun p hp => ?_)
    have hp' := (sortPairs_perm m.types).mem_iff.mp hp
    have hx := List.all_eq_true.mp htys p hp'
    rw [Bool.and_eq_true] at hx
    exact ⟨hx.1, decodeContractType_enc hx.2⟩
  have hsrcdec : decodeEntries isRelPath decodeSource
      ((sortPairs strLe m.sources).map (fun e => (e.1, e.2.enc))) =
      .ok ((sortPairs strLe m.sources).map (fun e => (e.1, e.2.canon))) := by
    refine decodeEntries_map isRelPath decodeSource _ _ _ (fun p hp => ?_)
    have hp' := (sortPairs_perm m.sources).mem_iff.mp hp
    have hx := List.all_eq_true.mp hsrc p hp'
    rw [Bool.and_eq_true] at hx
    exact ⟨hx.1, decodeSource_enc hx.2⟩
  have hcpdec : decodeEntries isName decodeCompiler
      ((sortPairs strLe m.compilers).map (fun e => (e.1, e.2.enc))) =
      .ok ((sortPairs strLe m.compilers).map (fun e => (e.1, e.2.canon))) := by
    refine decodeEntries_map isName decodeCompiler _ _ _ (fun p hp => ?_)
    have hp' := (sortPairs_perm m.compilers).mem_iff.mp hp
    have hx := List.all_eq_true.mp hcps p hp'
    rw [Bool.and_eq_true] at hx
    exact ⟨hx.1, decodeCompiler_enc hx.2⟩
  have hdepdec : decodeEntries isName decodeLink
      ((sortPairs strLe m.dependencies).map (fun e => (e.1, e.2.enc))) =
      .ok (sortPairs strLe m.dependencies) := by
    have hstep := decodeEntries_map isName decodeLink Link.enc id
      (sortPairs strLe m.dependencies) (fun p hp => by
        have hp' := (sortPairs_perm m.dependencies).mem_iff.mp hp
        have hx := List.all_eq_true.mp hdeps p hp'
        rw [Bool.and_eq_true] at hx
        exact ⟨hx.1, decodeLink_enc hx.2⟩)
    simpa using hstep
  have e1 : decodeTagField (Json.entriesOf m.encodeDoc) = .ok "cpack/v1" := by
    rw [decodeTagField, findVal_encodeDoc_manifest, htag']
    rfl
  have e2 : decodeNameField (Json.entriesOf m.encodeDoc) = .ok m.name := by
    rw [decodeNameField, findVal_encodeDoc_name]
    cases hn : m.name == ""
    · simp [decodeStr_str]
    · have hn' : m.name = "" := by simpa using hn
      simp [hn']
  have e3 : decodeDictField (Json.entriesOf m.encodeDoc) "metadata" =
      .ok (canonObj m.metadata) := by
    rw [decodeDictField, findVal_encodeDoc_metadata]
    cases hmd : m.metadata with
    | nil => simp [canonObj, canonEntries, sortPairs_nil]
    | cons a as => simp
  have e4 : decodeMapField (Json.entriesOf m.encodeDoc) "types" isName
      decodeContractType =
      .ok ((sortPairs strLe m.types).map (fun e => (e.1, e.2.canon))) := by
    rw [decodeMapField, findVal_encodeDoc_types]
    cases hty : m.types with
    | nil => simp [sortPairs_nil]
    | cons a as =>
      rw [hty] at htydec
      simp [htydec]
  have e5 : decodeMapField (Json.entriesOf m.encodeDoc) "sources" isRelPath
      decodeSource =
      .ok ((sortPairs strLe m.sources).map (fun e => (e.1, e.2.canon))) := by
    rw [decodeMapField, findVal_encodeDoc_sources]
    cases hsr : m.sources with
    | nil => simp [sortPairs_nil]
    | cons a as =>
      rw [hsr] at hsrcdec
      simp [hsrcdec]
  have e6 : decodeMapField (Json.entriesOf m.encodeDoc) "compilers" isName
      decodeCompiler =
      .ok ((sortPairs strLe m.compilers).map (fun e => (e.1, e.2.canon))) := by
    rw [decodeMapField, findVal_encodeDoc_compilers]
    cases hcp : m.compilers with
    | nil => simp [sortPairs_nil]
    | cons a as =>
      rw [hcp] at hcpdec
      simp [hcpdec]
  have e7 : decodeMapField (Json.entriesOf m.encodeDoc) "dependencies" isName
      decodeLink = .ok (sortPairs strLe m.dependencies) := by
    rw [decodeMapField, findVal_encodeDoc_dependencies]
    cases hdp : m.dependencies with
    | nil => simp [sortPairs_nil]
    | cons a as =>
      rw [hdp] at hdepdec
      simp [hdepdec]
  have hobj : m.encodeDoc = Json.obj (Json.entriesOf m.encodeDoc) := rfl
  rw [decodeManifest, hobj]
  simp only [decodeFields, e1, e2, e3, e4, e5, e6, e7, ebind_ok]
  have hM : (⟨"cpack/v1", m.name, canonObj m.metadata,
      (sortPairs strLe m.types).map (fun e => (e.1, e.2.canon)),
      (sortPairs strLe m.sources).map (fun e => (e.1, e.2.canon)),
      (sortPairs strLe m.compilers).map (fun e => (e.1, e.2.canon)),
      sortPairs strLe m.dependencies⟩ : Manifest) = m.canon := by
    simp [Manifest.canon, htag']
  rw [hM, ebind_pure]
  rw [validateRefs_canon m, hrefs]
  rfl

/-! ## Idempotence of the canonical form and invariance of the encoding -/

theorem keySorted_mapVal {κ ν ν' : Type} {le : κ → κ → Bool} (f : ν → ν')
    {l : List (κ × ν)} (h : KeySorted le l) : KeySorted le (mapVal f l) := by
  rw [KeySorted, mapVal]
  rw [List.pairwise_map]
  exact h

theorem sortPairs_mapVal_sorted {κ ν ν' : Type} {le : κ → κ → Bool}
    (htot : ∀ a b : κ, le a b = true ∨ le b a = true)
    (htr : ∀ a b c : κ, le a b = true → le b c = true → le a c = true)
    (f : ν → ν') (l : List (κ × ν)) :
    sortPairs le (mapVal f (sortPairs le l)) = mapVal f (sortPairs le l) :=
  sortPairs_of_sorted (keySorted_mapVal f (sortPairs_sorted htot htr l))

theorem isEmpty_of_perm {α : Type} {l₁ l₂ : List α} (h : l₁.Perm l₂) :
    l₁.isEmpty = l₂.isEmpty := by
  have hl := h.length_eq
  cases l₁ <;> cases l₂ <;> simp_all

theorem isEmpty_sortPairs {κ ν : Type} (le : κ → κ → Bool) (l : List (κ × ν)) :
    (sortPairs le l).isEmpty = l.isEmpty :=
  isEmpty_of_perm (sortPairs_perm l)

theorem isEmpty_map {α β : Type} (f : α → β) (l : List α) :
    (l.map f).isEmpty = l.isEmpty := by
  cases l <;> rfl

theorem isEmpty_canonObj (es : List (String × Json)) :
    (canonObj es).isEmpty = es.isEmpty := by
  rw [canonObj, isEmpty_sortPairs, canonEntries_eq_mapVal, mapVal, isEmpty_map]

theorem canonObj_canonEntries (es : List (String × Json)) :
    canonObj (canonEntries es) = canonObj es := by
  rw [canonObj, canonObj, canonEntries_idem]

theorem canonEntries_canonObj (es : List (String × Json)) :
    canonEntries (canonObj es) = canonObj es := by
  rw [canonObj, canonEntries_sortPairs, canonEntries_idem]

theorem ctCanon_idem (ct : ContractType) :
    ct.canon.canon = ct.canon := by
  rw [ContractType.canon, ContractType.canon]
  simp only
  rw [sortPairs_idem intLe_total intLe_trans]

theorem sourceCanon_idem (s : Source) : s.canon.canon = s.canon := by
  rw [Source.canon, Source.canon]
  simp only
  rw [canonObj_idem]

theorem compilerCanon_idem (c : Compiler) : c.canon.canon = c.canon := by
  rw [Compiler.canon, Compiler.canon]
  simp only
  rw [canonObj_idem]

theorem canonMap_idem {ν : Type} (canonF : ν → ν)
    (hF : ∀ v, canonF (canonF v) = canonF v) (l : List (String × ν)) :
    (sortPairs strLe ((sortPairs strLe l).map (fun e => (e.1, canonF e.2)))).map
      (fun e => (e.1, canonF e.2)) =
      (sortPairs strLe l).map (fun e => (e.1, canonF e.2)) := by
  rw [show ((sortPairs strLe l).map (fun e => (e.1, canonF e.2))) =
    mapVal canonF (sortPairs strLe l) from rfl]
  rw [sortPairs_mapVal_sorted strLe_total strLe_trans]
  rw [show (mapVal canonF (sortPairs strLe l)).map (fun e => (e.1, canonF e.2)) =
    mapVal canonF (mapVal canonF (sortPairs strLe l)) from rfl]
  rw [mapVal, mapVal, List.map_map]
  apply List.map_congr_left
  intro a _
  simp [hF a.2]

theorem manifestCanon_idem (m : Manifest) : m.canon.canon = m.canon := by
  rw [Manifest.canon, Manifest.canon]
  simp only
  rw [canonObj_idem]
  rw [canonMap_idem ContractType.canon ctCanon_idem,
    canonMap_idem Source.canon sourceCanon_idem,
    canonMap_idem Compiler.canon compilerCanon_idem,
    sortPairs_idem strLe_total strLe_trans]

theorem compilerEnc_canon (c : Compiler) : c.canon.enc = c.enc := by
  rw [Compiler.canon, Compiler.enc, Compiler.enc]
  simp only
  rw [isEmpty_canonObj, canonObj_idem]

theorem ctEnc_canon (ct : ContractType) : ct.canon.enc = ct.enc := by
  rw [ContractType.canon, ContractType.enc, ContractType.enc]
  simp only
  rw [isEmpty_sortPairs, sortPairs_idem intLe_total intLe_trans]

theorem sourceEnc_canon (s : Source) : s.canon.enc = s.enc := by
  rw [Source.canon, Source.enc, Source.enc]
  simp only
  rw [canonEntries_canonObj, canonObj]
  rw [sortPairs_cons, sortPairs_cons, sortPairs_idem strLe_total strLe_trans]

theorem encMap_canon {ν : Type} (canonF : ν → ν) (encF : ν → Json)
    (hF : ∀ v, encF (canonF v) = encF v) (l : List (String × ν)) :
    (sortPairs strLe ((sortPairs strLe l).map (fun e => (e.1, canonF e.2)))).map
      (fun e => (e.1, encF e.2)) =
      (sortPairs strLe l).map (fun e => (e.1, encF e.2)) := by
  rw [show ((sortPairs strLe l).map (fun e => (e.1, canonF e.2))) =
    mapVal canonF (sortPairs strLe l) from rfl]
  rw [sortPairs_mapVal_sorted strLe_total strLe_trans]
  rw [mapVal, List.map_map]
  apply List.map_congr_left
  intro a _
  simp [hF a.2]

theorem Manifest.encodeDoc_canon (m : Manifest) :
    m.canon.encodeDoc = m.encodeDoc := by
  rw [Manifest.encodeDoc, Manifest.encodeDoc]
  rw [show m.canon.manifest = m.manifest from rfl,
    show m.canon.name = m.name from rfl,
    show m.canon.metadata = canonObj m.metadata from rfl,
    show m.canon.types =
      (sortPairs strLe m.types).map (fun e => (e.1, e.2.canon)) from rfl,
    show m.canon.sources =
      (sortPairs strLe m.sources).map (fun e => (e.1, e.2.canon)) from rfl,
    show m.canon.compilers =
      (sortPairs strLe m.compilers).map (fun e => (e.1, e.2.canon)) from rfl,
    show m.canon.dependencies = sortPairs strLe m.dependencies from rfl]
  rw [isEmpty_canonObj, canonObj_idem]
  rw [isEmpty_map, isEmpty_sortPairs, isEmpty_map, isEmpty_sortPairs,
    isEmpty_map, isEmpty_sortPairs, isEmpty_sortPairs]
  rw [encMap_canon ContractType.canon ContractType.enc ctEnc_canon,
    encMap_canon Source.canon Source.enc sourceEnc_canon,
    encMap_canon Compiler.canon Compiler.enc compilerEnc_canon,
    sortPairs_idem strLe_total strLe_trans]

/-! ## Inversion helpers -/

theorem ebind_ok_inv {α β : Type} {step : Except DecodeError α}
    {rest : α → Except DecodeError β} {out : β}
    (h : (step >>= rest) = .ok out) :
    ∃ mid, step = .ok mid ∧ rest mid = .ok out := by
  cases step with
  | ok mid => exact ⟨mid, rfl, h⟩
  | error e => exact absurd h (by simp [ebind_error])

theorem decodeManifest_ok_inv {j : Json} {m : Manifest}
    (h : decodeManifest j = .ok m) :
    decodeFields j = .ok m ∧ m.validateRefs = true := by
  rw [decodeManifest] at h
  obtain ⟨m', hm', hf⟩ := ebind_ok_inv h
  by_cases hr : m'.validateRefs = true
  · rw [if_pos hr] at hf
    cases hf
    exact ⟨hm', hr⟩
  · rw [if_neg hr] at hf
    exact absurd hf (by simp)

theorem decodeManifest_error_of_refs {j : Json} {m : Manifest}
    (hf : decodeFields j = .ok m) (hr : m.validateRefs = false) :
    decodeManifest j = .error .assertionFailed := by
  rw [decodeManifest, hf, ebind_ok, hr]
  rfl

/-! ## Claim C1 -/

/-- C1: for every valid `Manifest` `m`, decoding the canonical encoding of
`m` succeeds and yields a manifest structurally equal to `m`: the decoded
value is `m.canon` (the mapping entries in the canonical key order, omitted
default fields restored), which is structurally equal to `m` (Python `==`
ignores mapping order). -/
theorem c1_round_trip (m : Manifest) (h : m.validB = true) :
    decodeManifest m.encodeDoc = .ok m.canon ∧ m.canon.StructEq m :=
  ⟨decodeManifest_encodeDoc h, manifestCanon_idem m⟩

/-- Witness for C1 at a concrete manifest with every section populated. -/
theorem c1_round_trip_witness :
    c1m.validB = true ∧
      (decodeManifest c1m.encodeDoc = .ok c1m.canon ∧ c1m.canon.StructEq c1m) :=
  ⟨rfl, c1_round_trip c1m rfl⟩

/-! ## Claim C10 -/

/-- C10: every `Manifest` field except the tag is optional with an empty
default: the document holding only `manifest: "cpack/v1"` decodes to the
manifest with empty `name` and empty `metadata`, `types`, `sources`,
`compilers` and `dependencies`. -/
theorem c10_defaults :
    decodeManifest (.obj [("manifest", .str "cpack/v1")]) =
      .ok ⟨"cpack/v1", "", [], [], [], [], []⟩ := rfl

/-! ## Claim C9 -/

theorem decodeTagField_ok_inv {es : List (String × Json)} {t : String}
    (h : decodeTagField es = .ok t) :
    t = "cpack/v1" ∧ findVal es "manifest" = some (.str "cpack/v1") := by
  rw [decodeTagField] at h
  cases hf : findVal es "manifest" with
  | none =>
    rw [hf] at h
    exact absurd h (by simp)
  | some v =>
    rw [hf] at h
    cases v with
    | str s =>
      by_cases hs : s = "cpack/v1"
      · subst hs
        have ht : Except.ok (ε := DecodeError) "cpack/v1" = .ok t := h
        cases ht
        exact ⟨rfl, rfl⟩
      · exfalso
        simp [hs] at h
    | num n => exact absurd h (by simp)
    | bool b => exact absurd h (by simp)
    | null => exact absurd h (by simp)
    | arr xs => exact absurd h (by simp)
    | obj es2 => exact absurd h (by simp)

theorem decodeFields_obj_inv {es : List (String × Json)} {m : Manifest}
    (h : decodeFields (.obj es) = .ok m) :
    decodeTagField es = .ok m.manifest := by
  simp only [decodeFields] at h
  obtain ⟨tag, htag, h⟩ := ebind_ok_inv h
  obtain ⟨nm, _, h⟩ := ebind_ok_inv h
  obtain ⟨md, _, h⟩ := ebind_ok_inv h
  obtain ⟨tys, _, h⟩ := ebind_ok_inv h
  obtain ⟨srcs, _, h⟩ := ebind_ok_inv h
  obtain ⟨cps, _, h⟩ := ebind_ok_inv h
  obtain ⟨deps, _, h⟩ := ebind_ok_inv h
  have hm : m = ⟨tag, nm, md, tys, srcs, cps, deps⟩ := by
    cases h
    rfl
  rw [hm]
  exact htag

theorem decodeTagField_error {es : List (String × Json)}
    (h : findVal es "manifest" ≠ some (.str "cpack/v1")) :
    ∃ e, decodeTagField es = .error e := by
  rw [decodeTagField]
  cases hf : findVal es "manifest" with
  | none => exact ⟨_, rfl⟩
  | some v =>
    rw [hf] at h
    cases v with
    | str s =>
      by_cases hs : s = "cpack/v1"
      · subst hs
        exact absurd rfl h
      · refine ⟨.unsupportedTag, ?_⟩
        simp [hs]
    | num n => exact ⟨_, rfl⟩
    | bool b => exact ⟨_, rfl⟩
    | null => exact ⟨_, rfl⟩
    | arr xs => exact ⟨_, rfl⟩
    | obj es2 => exact ⟨_, rfl⟩

/-- C9: decoding succeeds only when the `manifest` field holds the literal
`"cpack/v1"`; an absent tag or any other value makes decoding fail. -/
theorem c9_manifest_tag :
    (∀ (es : List (String × Json)) (m : Manifest),
      decodeManifest (.obj es) = .ok m →
        m.manifest = "cpack/v1" ∧
          findVal es "manifest" = some (.str "cpack/v1")) ∧
    (∀ es : List (String × Json),
      findVal es "manifest" ≠ some (.str "cpack/v1") →
        ∃ e, decodeManifest (.obj es) = .error e) := by
  constructor
  · intro es m h
    obtain ⟨hf, _⟩ := decodeManifest_ok_inv h
    have := decodeTagField_ok_inv (decodeFields_obj_inv hf)
    exact ⟨this.1, this.2⟩
  · intro es h
    obtain ⟨e, he⟩ := decodeTagField_error h
    refine ⟨e, ?_⟩
    rw [decodeManifest]
    simp only [decodeFields, he, ebind_error]

/-- Witness for C9: the mismatching tag `"cpack/v2"` and the missing tag
are both rejected; a well-formed document's decode carries the literal. -/
theorem c9_manifest_tag_witness :
    (∃ e, decodeManifest (.obj [("manifest", .str "cpack/v2")]) = .error e) ∧
      (∃ e, decodeManifest (.obj [("name", .str "x")]) = .error e) :=
  ⟨c9_manifest_tag.2 [("manifest", .str "cpack/v2")] (by simp [findVal]),
   c9_manifest_tag.2 [("name", .str "x")] (by simp [findVal])⟩

/-! ## Claim C3 -/

theorem validateRefs_spec {m : Manifest} (h : m.validateRefs = true) :
    ∀ e ∈ m.types, hasKey m.compilers e.2.compiler = true ∧
      ∀ s ∈ e.2.sources,
        (startsDotSlash s = true → hasKey m.sources s = true) ∧
        (startsDotSlash s = false → s.data.contains '/' = true ∧
          hasKey m.dependencies (beforeSlash s) = true) := by
  intro e he
  have h1 := List.all_eq_true.mp h e he
  rw [Bool.and_eq_true] at h1
  refine ⟨h1.1, ?_⟩
  intro s hs
  have h2 := List.all_eq_true.mp h1.2 s hs
  constructor
  · intro hss
    rw [if_pos hss] at h2
    exact h2
  · intro hss
    rw [if_neg (by simp [hss])] at h2
    rw [Bool.and_eq_true] at h2
    exact h2

/-- C3: a `ContractType` whose `compiler` is not a key of `compilers` makes
decoding fail (the manifest is not returned with the type dropped: a
successful decode returns the field-decoded manifest unchanged), and every
successfully decoded manifest satisfies the compiler referential
invariant. -/
theorem c3_compiler_integrity :
    (∀ (j : Json) (m : Manifest), decodeManifest j = .ok m →
      decodeFields j = .ok m ∧
        ∀ e ∈ m.types, hasKey m.compilers e.2.compiler = true) ∧
    (∀ (j : Json) (m : Manifest), decodeFields j = .ok m →
      (∃ e ∈ m.types, hasKey m.compilers e.2.compiler = false) →
      decodeManifest j = .error .assertionFailed) := by
  constructor
  · intro j m h
    obtain ⟨hf, hr⟩ := decodeManifest_ok_inv h
    exact ⟨hf, fun e he => (validateRefs_spec hr e he).1⟩
  · intro j m hf ⟨e, he, hbad⟩
    cases hr : m.validateRefs with
    | true =>
      have := (validateRefs_spec hr e he).1
      rw [this] at hbad
      exact absurd hbad (by simp)
    | false => exact decodeManifest_error_of_refs hf hr

/-- Witness for C3: the dangling compiler reference `"solc"` in `c3doc` is
rejected with the root assertion failure. -/
theorem c3_compiler_integrity_witness :
    decodeManifest c3doc = .error .assertionFailed :=
  c3_compiler_integrity.2 c3doc
    ⟨"cpack/v1", "", [], [("T", ⟨"solc", [], [], none⟩)], [], [], []⟩ rfl
    ⟨("T", ⟨"solc", [], [], none⟩), by simp, rfl⟩

/-! ## Claim C4 -/

/-- C4: in every successfully decoded manifest, each contract-type source
path starting with `./` is a key of `sources`, and every other source path
contains `/` with its first segment a key of `dependencies`; the document
`c4docBad` (path `depA/file.sol` with only dependency key `depB`) is
rejected while `c4docGood` (key `depA`) decodes. -/
theorem c4_path_resolution :
    (∀ (j : Json) (m : Manifest), decodeManifest j = .ok m →
      ∀ e ∈ m.types, ∀ s ∈ e.2.sources,
        (startsDotSlash s = true → hasKey m.sources s = true) ∧
        (startsDotSlash s = false → s.data.contains '/' = true ∧
          hasKey m.dependencies (beforeSlash s) = true)) ∧
    decodeManifest c4docBad = .error .assertionFailed ∧
    decodeManifest c4docGood = .ok c4m := by
  refine ⟨?_, rfl, rfl⟩
  intro j m h e he s hs
  obtain ⟨_, hr⟩ := decodeManifest_ok_inv h
  exact (validateRefs_spec hr e he).2 s hs

/-- Witness for C4: in the decoded `c4docGood`, the path `depA/file.sol`
resolves through the dependency key `depA`. -/
theorem c4_path_resolution_witness :
    "depA/file.sol".data.contains '/' = true ∧
      hasKey c4m.dependencies (beforeSlash "depA/file.sol") = true :=
  (c4_path_resolution.1 c4docGood c4m c4_path_resolution.2.2
    ("T", ⟨"solc", ["depA/file.sol"], [], none⟩) (by simp [c4m])
    "depA/file.sol" (by simp)).2 rfl

/-! ## Claim C5 -/

theorem noDupKeys_filter {κ ν : Type} [BEq κ] (p : κ × ν → Bool) :
    ∀ l : List (κ × ν), noDupKeys l = true → noDupKeys (l.filter p) = true
  | [], _ => rfl
  | (k, v) :: es, h => by
    have h' : (!es.any (fun e => e.1 == k)) = true ∧ noDupKeys es = true := by
      simpa [noDupKeys, Bool.and_eq_true] using h
    by_cases hp : p (k, v) = true
    · rw [List.filter_cons_of_pos hp]
      have hany : (es.filter p).any (fun e => e.1 == k) = false := by
        cases ha : (es.filter p).any (fun e => e.1 == k) with
        | false => rfl
        | true =>
          obtain ⟨e, he, hk⟩ := List.any_eq_true.mp ha
          have : es.any (fun e => e.1 == k) = true :=
            List.any_eq_true.mpr ⟨e, List.mem_of_mem_filter he, hk⟩
          rw [this] at h'
          exact absurd h'.1 (by simp)
      show (!(es.filter p).any (fun e => e.1 == k) &&
        noDupKeys (es.filter p)) = true
      rw [hany, noDupKeys_filter p es h'.2]
      rfl
    · rw [List.filter_cons_of_neg hp]
      exact noDupKeys_filter p es h'.2

theorem findVal_mapVal (f : Json → Json) :
    ∀ (l : List (String × Json)) (k : String),
      findVal (mapVal f l) k = (findVal l k).map f
  | [], _ => rfl
  | (k', v) :: es, k => by
    by_cases h : k' = k
    · show findVal ((k', f v) :: mapVal f es) k = _
      rw [findVal, if_pos h, findVal, if_pos h]
      rfl
    · show findVal ((k', f v) :: mapVal f es) k = _
      rw [findVal, if_neg h, findVal, if_neg h, findVal_mapVal f es k]

theorem findVal_filter_ne {k : String} (hk : ¬ k = "link") :
    ∀ es : List (String × Json),
      findVal (es.filter (fun e => e.1 != "link")) k = findVal es k
  | [] => rfl
  | (k', v) :: es => by
    by_cases h : k' = k
    · subst h
      rw [List.filter_cons_of_pos (by simpa using hk), findVal, if_pos rfl,
        findVal, if_pos rfl]
    · by_cases hl : k' = "link"
      · rw [List.filter_cons_of_neg (by simp [hl]), findVal, if_neg h,
          findVal_filter_ne hk es]
      · rw [List.filter_cons_of_pos (by simpa using hl), findVal, if_neg h,
          findVal, if_neg h, findVal_filter_ne hk es]

theorem decodeSource_inv {es : List (String × Json)} {s : Source}
    (h : decodeSource (.obj es) = .ok s) :
    s.extra = es.filter (fun e => e.1 != "link") := by
  simp only [decodeSource] at h
  cases hf : findVal es "link" with
  | none =>
    rw [hf] at h
    exact absurd h (by simp [ebind_error])
  | some v =>
    rw [hf] at h
    obtain ⟨l, _, hp⟩ := ebind_ok_inv h
    have : Except.ok (ε := DecodeError)
        (Source.mk l (es.filter (fun e => e.1 != "link"))) = .ok s := hp
    cases this
    rfl

/-- C5 (amended): a decoded `Source` re-emits every unrecognized field
(canonicalized by the sorted dump); but an encoded `Compiler` carries only
`bin` and `settings`, and an encoded `Manifest` carries only its seven
declared keys - unknown fields of `Compiler` and of the top level are
silently dropped by decoding, not preserved and not rejected. -/
theorem c5_extra_fields :
    (∀ (es : List (String × Json)) (s : Source), noDupKeys es = true →
      decodeSource (.obj es) = .ok s →
      ∀ (k : String) (v : Json), ¬ k = "link" → findVal es k = some v →
        findVal (Json.entriesOf s.enc) k = some (canonJson v)) ∧
    (∀ (c : Compiler) (k : String), ¬ k = "bin" → ¬ k = "settings" →
      findVal (Json.entriesOf c.enc) k = none) ∧
    (∀ (m : Manifest) (k : String), ¬ k = "compilers" → ¬ k = "dependencies" →
      ¬ k = "manifest" → ¬ k = "metadata" → ¬ k = "name" → ¬ k = "sources" →
      ¬ k = "types" → findVal (Json.entriesOf m.encodeDoc) k = none) := by
  refine ⟨?_, ?_, ?_⟩
  · intro es s hnd hdec k v hk hfind
    have hextra : s.extra = es.filter (fun e => e.1 != "link") :=
      decodeSource_inv hdec
    have hndf : noDupKeys s.extra = true := by
      rw [hextra]
      exact noDupKeys_filter _ es hnd
    have hall : s.extra.all (fun e => e.1 != "link") = true := by
      rw [hextra]
      exact List.all_eq_true.mpr (fun a ha => (List.mem_filter.mp ha).2)
    have hknd : noDupKeys (("link", s.link.enc) :: canonEntries s.extra) = true := by
      have h1 : (canonEntries s.extra).any (fun e => e.1 == "link") = false := by
        rw [canonEntries_eq_mapVal]
        rw [show ((mapVal canonJson s.extra).any fun e => e.1 == "link") =
          hasKey (mapVal canonJson s.extra) "link" from rfl]
        rw [hasKey_mapVal]
        exact hasKey_eq_false_of_all_ne hall
      have h2 : noDupKeys (canonEntries s.extra) = true := by
        rw [noDupKeys_eq_of_keysOf (canonEntries s.extra) s.extra
          (keysOf_canonEntries s.extra)]
        exact hndf
      show (!(canonEntries s.extra).any (fun e => e.1 == "link") &&
        noDupKeys (canonEntries s.extra)) = true
      rw [h1, h2]
      rfl
    show findVal (sortPairs strLe (("link", s.link.enc) ::
      canonEntries s.extra)) k = some (canonJson v)
    rw [findVal_sortPairs hknd, findVal_cons_ne _ _ _ _ (fun he => hk he.symm),
      canonEntries_eq_mapVal, findVal_mapVal, hextra, findVal_filter_ne hk,
      hfind]
    rfl
  · intro c k hb hs
    show findVal (("bin", c.bin.enc) ::
      optField (!c.settings.isEmpty) "settings" (.obj (canonObj c.settings))) k = none
    rw [findVal_cons_ne _ _ _ _ (fun he => hb he.symm),
      findVal_optField_ne _ _ _ _ (fun he => hs he.symm)]
  · intro m k h1 h2 h3 h4 h5 h6 h7
    show findVal (Json.entriesOf m.encodeDoc) k = none
    simp only [Manifest.encodeDoc, Json.entriesOf]
    rw [findVal_optField_append_ne _ _ _ _ _ (fun he => h1 he.symm),
      findVal_optField_append_ne _ _ _ _ _ (fun he => h2 he.symm),
      findVal_cons_ne _ _ _ _ (fun he => h3 he.symm),
      findVal_optField_append_ne _ _ _ _ _ (fun he => h4 he.symm),
      findVal_optField_append_ne _ _ _ _ _ (fun he => h5 he.symm),
      findVal_optField_append_ne _ _ _ _ _ (fun he => h6 he.symm),
      findVal_optField_ne _ _ _ _ (fun he => h7 he.symm)]

/-- Counterexample to C5 as stated: the unrecognized top-level field
`license` survives neither decode nor re-encode - it is silently dropped. -/
theorem c5_counterexample :
    decodeManifest c5doc = .ok c5m ∧
      findVal (Json.entriesOf c5m.encodeDoc) "license" = none := ⟨rfl, rfl⟩

/-- Witness for C5 at a concrete `Source` with extra field `license`. -/
theorem c5_extra_fields_witness :
    findVal (Json.entriesOf
      (Source.enc ⟨⟨"ipfs://Qm1", none⟩, [("license", Json.str "MIT")]⟩))
      "license" = some (canonJson (.str "MIT")) :=
  c5_extra_fields.1
    [("link", .obj [("uri", .str "ipfs://Qm1")]), ("license", .str "MIT")]
    ⟨⟨"ipfs://Qm1", none⟩, [("license", .str "MIT")]⟩ rfl rfl
    "license" (.str "MIT") (by decide) rfl

/-! ## Claim C6 -/

theorem dropWhile_append_of_all {α : Type} (p : α → Bool) :
    ∀ (l₁ l₂ : List α), (∀ a ∈ l₁, p a = true) →
      List.dropWhile p (l₁ ++ l₂) = List.dropWhile p l₂
  | [], _, _ => rfl
  | x :: xs, l₂, h => by
    rw [List.cons_append, List.dropWhile]
    rw [h x (List.mem_cons_self x xs)]
    exact dropWhile_append_of_all p xs l₂
      (fun a ha => h a (List.mem_cons_of_mem x ha))

theorem pathChar_of_isLower {c : Char} (h : c.isLower = true) :
    pathChar c = true := by
  simp [pathChar, Char.isAlphanum, Char.isAlpha, h]

theorem pathBody_iff (cs : List Char) :
    pathBody cs = true ↔ ∃ stem ext : List Char,
      cs = stem ++ '.' :: ext ∧ stem.all pathChar = true ∧
        ext.all Char.isLower = true := by
  constructor
  · intro h
    simp only [pathBody, Bool.and_eq_true] at h
    obtain ⟨⟨_, hall⟩, hdrop⟩ := h
    have hdrop' : (cs.reverse.dropWhile Char.isLower).head? = some '.' := by
      simpa using hdrop
    obtain ⟨d', hd'⟩ : ∃ d',
        cs.reverse.dropWhile Char.isLower = '.' :: d' := by
      cases hc : cs.reverse.dropWhile Char.isLower with
      | nil => rw [hc] at hdrop'; simp at hdrop'
      | cons c d' =>
        rw [hc] at hdrop'
        simp at hdrop'
        exact ⟨d', by rw [hdrop']⟩
    have hsplit : cs.reverse.takeWhile Char.isLower ++ '.' :: d' = cs.reverse := by
      rw [← hd']
      exact List.takeWhile_append_dropWhile _ _
    refine ⟨d'.reverse, (cs.reverse.takeWhile Char.isLower).reverse, ?_, ?_, ?_⟩
    · have h1 : cs = (cs.reverse.takeWhile Char.isLower ++ '.' :: d').reverse := by
        rw [hsplit, List.reverse_reverse]
      conv_lhs => rw [h1]
      simp
    · refine List.all_eq_true.mpr (fun a ha => ?_)
      refine List.all_eq_true.mp hall a ?_
      have h1 : a ∈ d' := by simpa using ha
      have h2 : a ∈ cs.reverse := by
        rw [← hsplit]
        exact List.mem_append.mpr (Or.inr (List.mem_cons_of_mem _ h1))
      simpa using h2
    · refine List.all_eq_true.mpr (fun a ha => ?_)
      exact List.mem_takeWhile_imp (by simpa using ha)
  · rintro ⟨stem, ext, hcs, hstem, hext⟩
    have hrev : cs.reverse = ext.reverse ++ '.' :: stem.reverse := by
      rw [hcs]
      simp
    simp only [pathBody, Bool.and_eq_true]
    refine ⟨⟨?_, ?_⟩, ?_⟩
    · rw [hcs]
      cases stem <;> simp
    · refine List.all_eq_true.mpr (fun a ha => ?_)
      rw [hcs] at ha
      rcases List.mem_append.mp ha with h1 | h1
      · exact List.all_eq_true.mp hstem a h1
      · rcases List.mem_cons.mp h1 with rfl | h2
        · rfl
        · exact pathChar_of_isLower (List.all_eq_true.mp hext a h2)
    · rw [hrev, dropWhile_append_of_all Char.isLower ext.reverse _
        (fun a ha => List.all_eq_true.mp hext a (by simpa using ha))]
      rw [List.dropWhile]
      simp

theorem chopNl_append_nl : ∀ cs : List Char, chopNl (cs ++ ['\n']) = cs
  | [] => rfl
  | [c] => by
    show chopNl (c :: '\n' :: []) = [c]
    rw [chopNl]
    rfl
  | c :: c2 :: cs => congrArg (c :: ·) (chopNl_append_nl (c2 :: cs))

theorem chopNl_cases :
    ∀ cs : List Char, cs = chopNl cs ∨ cs = chopNl cs ++ ['\n']
  | [] => .inl rfl
  | [c] => by
    by_cases h : c = '\n'
    · subst h
      exact .inr rfl
    · left
      rw [chopNl, if_neg h]
  | c :: c2 :: cs => by
    rcases chopNl_cases (c2 :: cs) with h | h
    · left
      rw [chopNl, ← h]
    · right
      rw [chopNl, List.cons_append, ← h]

theorem chopNl_all_lower : ∀ cs : List Char,
    cs.all Char.isLower = true → chopNl cs = cs
  | [], _ => rfl
  | [c], h => by
    have hc : c.isLower = true := by simpa using h
    rw [chopNl, if_neg]
    intro he
    rw [he] at hc
    exact absurd hc (by decide)
  | c :: c2 :: cs, h => by
    have h2 : (c2 :: cs).all Char.isLower = true := by
      simp only [List.all_cons, Bool.and_eq_true] at h ⊢
      exact ⟨h.2.1, h.2.2⟩
    rw [chopNl, chopNl_all_lower (c2 :: cs) h2]

theorem chopNl_stem_ext : ∀ (pre ext : List Char),
    ext.all Char.isLower = true → chopNl (pre ++ '.' :: ext) = pre ++ '.' :: ext
  | [], ext, h => by
    cases ext with
    | nil => rfl
    | cons e es =>
      show chopNl ('.' :: e :: es) = '.' :: e :: es
      rw [chopNl, chopNl_all_lower (e :: es) h]
  | p :: pre, ext, h => by
    cases pre with
    | nil => exact congrArg (p :: ·) (chopNl_stem_ext [] ext h)
    | cons q qs => exact congrArg (p :: ·) (chopNl_stem_ext (q :: qs) ext h)

theorem relPathBody_iff (cs : List Char) :
    relPathBody cs = true ↔ ∃ stem ext : List Char,
      cs = '.' :: '/' :: (stem ++ '.' :: ext) ∧ stem.all pathChar = true ∧
        ext.all Char.isLower = true := by
  cases cs with
  | nil => simp [relPathBody]
  | cons c1 rest1 =>
    cases rest1 with
    | nil => simp [relPathBody]
    | cons c2 rest =>
      rw [relPathBody]
      simp only [Bool.and_eq_true, decide_eq_true_eq]
      constructor
      · rintro ⟨⟨rfl, rfl⟩, hbody⟩
        obtain ⟨stem, ext, h1, h2, h3⟩ := (pathBody_iff rest).mp hbody
        exact ⟨stem, ext, by rw [h1], h2, h3⟩
      · rintro ⟨stem, ext, h1, h2, h3⟩
        obtain ⟨rfl, rfl, hrest⟩ : c1 = '.' ∧ c2 = '/' ∧
            rest = stem ++ '.' :: ext := by
          injection h1 with ha h1'
          injection h1' with hb hc
          exact ⟨ha, hb, hc⟩
        exact ⟨⟨rfl, rfl⟩, (pathBody_iff rest).mpr ⟨stem, ext, hrest, h2, h3⟩⟩

/-- C6 (amended): the code's patterns use a Kleene star for the extension
and are checked with `re.match`, whose `$` also matches just before one
trailing newline: `RelPath` accepts exactly `./` followed by
`[A-Za-z0-9./]*`, a `.`, zero or more lowercase letters and an optional
final newline; `DepPath` the same without the `./` prefix.  In particular
a trailing bare dot is accepted, and so is a trailing newline. -/
theorem c6_path_patterns (s : String) :
    (isDepPath s = true ↔ ∃ stem ext : List Char,
      (s.data = stem ++ '.' :: ext ∨
        s.data = (stem ++ '.' :: ext) ++ ['\n']) ∧
      stem.all pathChar = true ∧ ext.all Char.isLower = true) ∧
    (isRelPath s = true ↔ ∃ stem ext : List Char,
      (s.data = '.' :: '/' :: (stem ++ '.' :: ext) ∨
        s.data = ('.' :: '/' :: (stem ++ '.' :: ext)) ++ ['\n']) ∧
      stem.all pathChar = true ∧ ext.all Char.isLower = true) := by
  constructor
  · rw [isDepPath]
    constructor
    · intro h
      obtain ⟨stem, ext, h1, h2, h3⟩ := (pathBody_iff (chopNl s.data)).mp h
      rcases chopNl_cases s.data with hc | hc
      · exact ⟨stem, ext, .inl (by rw [hc, h1]), h2, h3⟩
      · exact ⟨stem, ext, .inr (by rw [hc, h1]), h2, h3⟩
    · rintro ⟨stem, ext, hd, h2, h3⟩
      rcases hd with hd | hd
      · rw [hd, chopNl_stem_ext stem ext h3]
        exact (pathBody_iff _).mpr ⟨stem, ext, rfl, h2, h3⟩
      · rw [hd, chopNl_append_nl]
        exact (pathBody_iff _).mpr ⟨stem, ext, rfl, h2, h3⟩
  · rw [isRelPath]
    constructor
    · intro h
      obtain ⟨stem, ext, h1, h2, h3⟩ := (relPathBody_iff (chopNl s.data)).mp h
      rcases chopNl_cases s.data with hc | hc
      · exact ⟨stem, ext, .inl (by rw [hc, h1]), h2, h3⟩
      · exact ⟨stem, ext, .inr (by rw [hc, h1]), h2, h3⟩
    · rintro ⟨stem, ext, hd, h2, h3⟩
      rcases hd with hd | hd
      · rw [hd, show chopNl ('.' :: '/' :: (stem ++ '.' :: ext)) =
            '.' :: '/' :: (stem ++ '.' :: ext) from by
          simpa using chopNl_stem_ext ('.' :: '/' :: stem) ext h3]
        exact (relPathBody_iff _).mpr ⟨stem, ext, rfl, h2, h3⟩
      · rw [hd, chopNl_append_nl]
        exact (relPathBody_iff _).mpr ⟨stem, ext, rfl, h2, h3⟩

/-- Counterexample to C6 as stated: the code accepts a trailing bare dot
(`[a-z]*`, not the claimed `[a-z]+`), and it also accepts one trailing
newline (`re.match` with `$`), so not every accepted path ends in a dot
followed by at least one lowercase letter. -/
theorem c6_counterexample :
    isRelPath "./file." = true ∧ isRelPathSpec "./file." = false ∧
      isDepPath "file." = true ∧ isDepPathSpec "file." = false ∧
      isRelPath "./file.sol\n" = true ∧ isDepPath "x.sol\n" = true :=
  ⟨rfl, rfl, rfl, rfl, rfl, rfl⟩

/-! ## Claim C7 -/

theorem isAddress_intStr (i : Int) : isAddress (intStr i) = false := by
  show isAddress (String.mk (intChars i)) = false
  rw [intChars]
  by_cases h : i < 0
  · rw [if_pos h]
    cases hn : natChars i.natAbs with
    | nil => exact absurd hn (natChars_spec _).1
    | cons c cs => simp [isAddress]
  · rw [if_neg h]
    obtain ⟨hne, hdig, _⟩ := natChars_spec i.natAbs
    cases hn : natChars i.natAbs with
    | nil => exact absurd hn hne
    | cons c cs =>
      cases cs with
      | nil => rfl
      | cons c2 cs2 =>
        have h2 : c2.isDigit = true := by
          rw [hn] at hdig
          exact List.all_eq_true.mp hdig c2 (by simp)
        have hx : (c2 = 'x') = False :=
          eq_false (fun he => absurd (he ▸ h2) (by decide))
        simp [isAddress, hx]

theorem decodeAddr_inv {j : Json} {a : String}
    (h : decodeConStr isAddress j = .ok a) :
    j = .str a ∧ isAddress a = true := by
  cases j with
  | str s =>
    simp only [decodeConStr, decodeStr, ebind_ok] at h
    by_cases hA : isAddress s = true
    · rw [if_pos hA] at h
      have : Except.ok (ε := DecodeError) s = .ok a := h
      cases this
      exact ⟨rfl, hA⟩
    · rw [if_neg hA] at h
      exact absurd h (by simp)
  | num n =>
    simp only [decodeConStr, decodeStr, ebind_ok] at h
    rw [isAddress_intStr] at h
    exact absurd h (by simp)
  | bool b =>
    cases b <;> simp only [decodeConStr, decodeStr, ebind_ok] at h <;>
      exact absurd h (by simp [isAddress])
  | null => exact absurd h (by simp [decodeConStr, decodeStr, ebind_error])
  | arr xs => exact absurd h (by simp [decodeConStr, decodeStr, ebind_error])
  | obj es => exact absurd h (by simp [decodeConStr, decodeStr, ebind_error])

theorem decodeAddrList_iff : ∀ (xs : List Json) (as : List String),
    decodeList (decodeConStr isAddress) xs = .ok as ↔
      xs = as.map .str ∧ as.all isAddress = true
  | [], as => by
    cases as with
    | nil => simp [decodeList]
    | cons a as => simp [decodeList]
  | j :: js, as => by
    constructor
    · intro h
      simp only [decodeList] at h
      obtain ⟨a, hja, h⟩ := ebind_ok_inv h
      obtain ⟨rest, hrest, hp⟩ := ebind_ok_inv h
      have has : as = a :: rest := by
        have : Except.ok (ε := DecodeError) (a :: rest) = .ok as := hp
        cases this
        rfl
      obtain ⟨hj, ha⟩ := decodeAddr_inv hja
      obtain ⟨hjs, hall⟩ := (decodeAddrList_iff js rest).mp hrest
      subst has hj hjs
      exact ⟨rfl, by simp [ha, hall]⟩
    · rintro ⟨hxs, hall⟩
      cases as with
      | nil => exact absurd hxs (by simp)
      | cons a rest =>
        have hj : j = .str a ∧ js = rest.map .str := by
          rw [List.map_cons] at hxs
          injection hxs with h1 h2
          exact ⟨h1, h2⟩
        rw [List.all_cons, Bool.and_eq_true] at hall
        rw [hj.1, hj.2]
        simp only [decodeList, decodeConStr_str hall.1, ebind_ok,
          (decodeAddrList_iff (rest.map .str) rest).mpr ⟨rfl, hall.2⟩]
        rfl

/-- C7 (amended): a `deployments` object of ASCII keys decodes successfully
iff every key parses under Python `int()` (surrounding whitespace stripped,
an optional sign, digits with underscore grouping - negative chain ids are
accepted, since the annotation is plain `int`) and every value is an array
of `Address`-valid strings; entries, and the addresses inside each entry,
are kept in order with no deduplication.  (The ASCII hypothesis scopes the
characterization to where the embedded `pyInt` is exactly `int()`: Python
additionally accepts non-ASCII decimal digits and non-ASCII whitespace.) -/
theorem c7_deployments : ∀ (es : List (String × Json))
    (l : List (Int × List String)),
    es.all (fun e => e.1.data.all (fun c => c.toNat < 128)) = true →
    (decodeDepEntries es = .ok l ↔
      List.Forall₂ (fun (e : String × Json) (p : Int × List String) =>
        pyInt e.1 = some p.1 ∧ e.2 = .arr (p.2.map .str) ∧
          p.2.all isAddress = true) es l)
  | [], l, _ => by
    cases l with
    | nil => simp [decodeDepEntries]
    | cons p ps => simp [decodeDepEntries]
  | (k, v) :: es, l, ha => by
    have htail : es.all (fun e => e.1.data.all (fun c => c.toNat < 128)) =
        true := by
      simp only [List.all_cons, Bool.and_eq_true] at ha
      exact ha.2
    constructor
    · intro h
      simp only [decodeDepEntries] at h
      cases hk : pyInt k with
      | none => simp [hk, ebind_error] at h
      | some n =>
        simp only [hk] at h
        cases v with
        | arr xs =>
          simp only [ebind_ok] at h
          obtain ⟨addrs, haddrs, h⟩ := ebind_ok_inv h
          obtain ⟨rest, hrest, hp⟩ := ebind_ok_inv h
          have hl : l = (n, addrs) :: rest := by
            have : Except.ok (ε := DecodeError) ((n, addrs) :: rest) = .ok l := hp
            cases this
            rfl
          obtain ⟨hxs, hall⟩ := (decodeAddrList_iff xs addrs).mp haddrs
          subst hl hxs
          exact List.Forall₂.cons ⟨hk, rfl, hall⟩
            ((c7_deployments es rest htail).mp hrest)
        | str s => simp [ebind_ok, ebind_error] at h
        | num n2 => simp [ebind_ok, ebind_error] at h
        | bool b => simp [ebind_ok, ebind_error] at h
        | null => simp [ebind_ok, ebind_error] at h
        | obj oes => simp [ebind_ok, ebind_error] at h
    · intro h
      cases h with
      | cons hp hrest =>
        rename_i p ps
        have hk2 : pyInt k = some p.1 := hp.1
        have hv2 : v = .arr (p.2.map .str) := hp.2.1
        have hall : p.2.all isAddress = true := hp.2.2
        simp only [decodeDepEntries, hk2, hv2, ebind_ok,
          (decodeAddrList_iff (p.2.map .str) p.2).mpr ⟨rfl, hall⟩,
          (c7_deployments es ps htail).mpr hrest]
        rfl

/-- Counterexample to C7 as stated: the negative chain-id key `-1` is
accepted, not rejected. -/
theorem c7_counterexample :
    decodeContractType (.obj [("compiler", .str "c"),
      ("deployments", .obj [("-1", .arr [.str exAddr])])]) =
      .ok ⟨"c", [], [(-1, [exAddr])], none⟩ := rfl

/-- Concrete instance of `c7_deployments`: the ASCII key `" 1_0"` (spaces
stripped, underscores grouped by `int()`) decodes to chain id `10`, with
its address list kept in source order. -/
theorem c7_deployments_witness :
    [((" 1_0" : String), Json.arr [.str exAddr])].all
        (fun e => e.1.data.all (fun c => c.toNat < 128)) = true ∧
    decodeDepEntries [(" 1_0", .arr [.str exAddr])] = .ok [(10, [exAddr])] :=
  ⟨rfl,
    (c7_deployments [(" 1_0", .arr [.str exAddr])] [(10, [exAddr])] rfl).mpr
      (List.Forall₂.cons ⟨rfl, rfl, rfl⟩ List.Forall₂.nil)⟩

/-! ## Claim C8 -/

/-- C8 (amended): a `Link`'s `checksum` is optional; when a checksum is
present, both `algorithm` and `hash` are required fields with no default (a
mapping missing either is rejected), but they are plain `str` fields: empty
strings are accepted. -/
theorem c8_checksum :
    (∀ u : String, isUrl u = true →
      decodeLink (.obj [("uri", .str u)]) = .ok ⟨u, none⟩) ∧
    (∀ es : List (String × Json), findVal es "algorithm" = none →
      decodeChecksum (.obj es) = .error .missingField) ∧
    (∀ (a : String) (es : List (String × Json)),
      findVal es "algorithm" = some (.str a) → findVal es "hash" = none →
      decodeChecksum (.obj es) = .error .missingField) ∧
    (∀ a hsh : String, decodeChecksum (.obj [("algorithm", .str a),
      ("hash", .str hsh)]) = .ok ⟨a, hsh⟩) := by
  refine ⟨?_, ?_, ?_, ?_⟩
  · intro u hu
    simp [decodeLink, findVal, decodeConStr_str hu, ebind_ok]
  · intro es ha
    simp only [decodeChecksum, ha]
    rfl
  · intro a es ha hh
    simp only [decodeChecksum, ha, hh, decodeStr_str, ebind_ok]
    rfl
  · intro a hsh
    rfl

/-- Counterexample to C8 as stated: a checksum whose `algorithm` and `hash`
are both the empty string is accepted, not rejected. -/
theorem c8_counterexample :
    decodeChecksum (.obj [("algorithm", .str ""), ("hash", .str "")]) =
      .ok ⟨"", ""⟩ := rfl

/-- Witness for C8 at concrete inputs. -/
theorem c8_checksum_witness :
    decodeLink (.obj [("uri", .str "ipfs://Qm1")]) = .ok ⟨"ipfs://Qm1", none⟩ ∧
      decodeChecksum (.obj [("hash", .str "ab")]) = .error .missingField ∧
      decodeChecksum (.obj [("algorithm", .str "sha256")]) =
        .error .missingField ∧
      decodeChecksum (.obj [("algorithm", .str "x"), ("hash", .str "y")]) =
        .ok ⟨"x", "y"⟩ :=
  ⟨c8_checksum.1 "ipfs://Qm1" rfl, c8_checksum.2.1 _ rfl,
   c8_checksum.2.2.1 "sha256" _ rfl rfl, c8_checksum.2.2.2 "x" "y"⟩

/-! ## Claim C2: whitespace lemmas -/

theorem not_ws_of_toNat {c : Char} (h32 : c.toNat ≠ 32) (h9 : c.toNat ≠ 9)
    (h10 : c.toNat ≠ 10) (h13 : c.toNat ≠ 13) : c.isWhitespace = false := by
  have e1 : (c = ' ') = False := eq_false (fun he => h32 (by rw [he]; decide))
  have e2 : (c = '\t') = False := eq_false (fun he => h9 (by rw [he]; decide))
  have e3 : (c = '\r') = False := eq_false (fun he => h13 (by rw [he]; decide))
  have e4 : (c = '\n') = False := eq_false (fun he => h10 (by rw [he]; decide))
  simp [Char.isWhitespace, e1, e2, e3, e4]

theorem not_ws_of_isDigit {c : Char} (h : c.isDigit = true) :
    c.isWhitespace = false := by
  have e1 : (c = ' ') = False :=
    eq_false (fun he => absurd (he ▸ h) (by decide))
  have e2 : (c = '\t') = False :=
    eq_false (fun he => absurd (he ▸ h) (by decide))
  have e3 : (c = '\r') = False :=
    eq_false (fun he => absurd (he ▸ h) (by decide))
  have e4 : (c = '\n') = False :=
    eq_false (fun he => absurd (he ▸ h) (by decide))
  simp [Char.isWhitespace, e1, e2, e3, e4]

theorem hexDigitCh_not_ws (d : Nat) (h : d < 16) :
    (hexDigitCh d).isWhitespace = false := by
  interval_cases d <;> decide

theorem wsFreeL_append (a b : List Char) :
    wsFreeL (a ++ b) = (wsFreeL a && wsFreeL b) := by
  simp [wsFreeL, List.all_append]

theorem hex4_wsFree (n : Nat) : wsFreeL (hex4 n) = true := by
  have h1 := hexDigitCh_not_ws (n / 4096 % 16) (Nat.mod_lt _ (by omega))
  have h2 := hexDigitCh_not_ws (n / 256 % 16) (Nat.mod_lt _ (by omega))
  have h3 := hexDigitCh_not_ws (n / 16 % 16) (Nat.mod_lt _ (by omega))
  have h4 := hexDigitCh_not_ws (n % 16) (Nat.mod_lt _ (by omega))
  simp [hex4, wsFreeL, h1, h2, h3, h4]

theorem escChar_wsFree (c : Char) (h : c.toNat ≠ 32) :
    wsFreeL (escChar c) = true := by
  simp only [escChar]
  by_cases h34 : c.toNat = 34
  · rw [if_pos h34]; decide
  rw [if_neg h34]
  by_cases h92 : c.toNat = 92
  · rw [if_pos h92]; decide
  rw [if_neg h92]
  by_cases h8 : c.toNat = 8
  · rw [if_pos h8]; decide
  rw [if_neg h8]
  by_cases h9 : c.toNat = 9
  · rw [if_pos h9]; decide
  rw [if_neg h9]
  by_cases h10 : c.toNat = 10
  · rw [if_pos h10]; decide
  rw [if_neg h10]
  by_cases h12 : c.toNat = 12
  · rw [if_pos h12]; decide
  rw [if_neg h12]
  by_cases h13 : c.toNat = 13
  · rw [if_pos h13]; decide
  rw [if_neg h13]
  by_cases h32 : c.toNat < 32
  · rw [if_pos h32]
    show wsFreeL ([bsCh, 'u'] ++ hex4 c.toNat) = true
    rw [wsFreeL_append, hex4_wsFree]
    decide
  rw [if_neg h32]
  by_cases h127 : c.toNat < 127
  · rw [if_pos h127]
    simp [wsFreeL, not_ws_of_toNat h (by omega) (by omega) (by omega)]
  rw [if_neg h127]
  by_cases h64k : c.toNat < 65536
  · rw [if_pos h64k]
    show wsFreeL ([bsCh, 'u'] ++ hex4 c.toNat) = true
    rw [wsFreeL_append, hex4_wsFree]
    decide
  · rw [if_neg h64k]
    show wsFreeL (([bsCh, 'u'] ++ hex4 (55296 + (c.toNat - 65536) / 1024)) ++
      ([bsCh, 'u'] ++ hex4 (56320 + (c.toNat - 65536) % 1024))) = true
    rw [wsFreeL_append, wsFreeL_append, wsFreeL_append, hex4_wsFree,
      hex4_wsFree]
    decide

theorem strLit_wsFree (s : String) (h : spaceFreeL s.data = true) :
    wsFreeL (strLitChars s) = true := by
  rw [strLitChars]
  have hfold : ∀ cs : List Char, cs.all (fun c => c.toNat != 32) = true →
      wsFreeL (cs.foldr (fun c acc => escChar c ++ acc) [quoteCh]) = true := by
    intro cs hcs
    induction cs with
    | nil => decide
    | cons c cs ih =>
      rw [List.all_cons, Bool.and_eq_true] at hcs
      rw [List.foldr_cons, wsFreeL_append, ih hcs.2, escChar_wsFree c
        (by simpa using hcs.1)]
      rfl
  have := hfold s.data h
  simp [wsFreeL] at this ⊢
  exact ⟨by decide, this⟩

theorem intChars_wsFree (i : Int) : wsFreeL (intChars i) = true := by
  have hdig := (natChars_spec i.natAbs).2.1
  have hnat : wsFreeL (natChars i.natAbs) = true := by
    rw [wsFreeL]
    refine List.all_eq_true.mpr (fun c hc => ?_)
    have := List.all_eq_true.mp hdig c hc
    simp [not_ws_of_isDigit this]
  rw [intChars]
  by_cases h : i < 0
  · rw [if_pos h]
    show wsFreeL ('-' :: natChars i.natAbs) = true
    rw [show ('-' :: natChars i.natAbs) = ['-'] ++ natChars i.natAbs from rfl,
      wsFreeL_append, hnat]
    decide
  · rw [if_neg h]
    exact hnat

mutual

theorem dumpChars_wsFree : ∀ j : Json, strsSpaceFree j = true →
    wsFreeL (dumpChars j) = true
  | .str s, h => strLit_wsFree s h
  | .num n, _ => intChars_wsFree n
  | .bool b, _ => by cases b <;> decide
  | .null, _ => by decide
  | .arr xs, h => by
    show wsFreeL (([lbrackCh] ++ dumpArr xs) ++ [rbrackCh]) = true
    rw [wsFreeL_append, wsFreeL_append, dumpArr_wsFree xs h]
    decide
  | .obj es, h => by
    show wsFreeL (([lbraceCh] ++ dumpObj es) ++ [rbraceCh]) = true
    rw [wsFreeL_append, wsFreeL_append, dumpObj_wsFree es h]
    decide

theorem dumpArr_wsFree : ∀ xs : List Json, strsSpaceFreeList xs = true →
    wsFreeL (dumpArr xs) = true
  | [], _ => by decide
  | [j], h => dumpChars_wsFree j (by simpa [strsSpaceFreeList] using h)
  | j :: j2 :: js, h => by
    have h' : strsSpaceFree j = true ∧ strsSpaceFreeList (j2 :: js) = true := by
      simpa [strsSpaceFreeList, Bool.and_eq_true] using h
    show wsFreeL (dumpChars j ++ ([','] ++ dumpArr (j2 :: js))) = true
    rw [wsFreeL_append, wsFreeL_append, dumpChars_wsFree j h'.1,
      dumpArr_wsFree (j2 :: js) h'.2]
    decide

theorem dumpObj_wsFree : ∀ es : List (String × Json),
    strsSpaceFreeEntries es = true → wsFreeL (dumpObj es) = true
  | [], _ => by decide
  | [(k, v)], h => by
    have h' : spaceFreeL k.data = true ∧ strsSpaceFree v = true := by
      simpa [strsSpaceFreeEntries, Bool.and_eq_true] using h
    show wsFreeL (strLitChars k ++ ([':'] ++ dumpChars v)) = true
    rw [wsFreeL_append, wsFreeL_append, strLit_wsFree k h'.1,
      dumpChars_wsFree v h'.2]
    decide
  | (k, v) :: e2 :: es, h => by
    have h' : spaceFreeL k.data = true ∧ strsSpaceFree v = true ∧
        strsSpaceFreeEntries (e2 :: es) = true := by
      simpa [strsSpaceFreeEntries, Bool.and_eq_true, and_assoc] using h
    show wsFreeL ((strLitChars k ++ ([':'] ++ dumpChars v)) ++
      ([','] ++ dumpObj (e2 :: es))) = true
    rw [wsFreeL_append, wsFreeL_append, wsFreeL_append, wsFreeL_append,
      strLit_wsFree k h'.1, dumpChars_wsFree v h'.2.1,
      dumpObj_wsFree (e2 :: es) h'.2.2]
    decide

end

/-! ## Claim C2 -/

theorem mem_optField {b : Bool} {k0 k : String} {v0 v : Json}
    (h : (k, v) ∈ optField b k0 v0) : k = k0 ∧ v = v0 := by
  cases b
  · simp [optField] at h
  · simpa [optField] using h

theorem strKeysSorted_of_keySorted :
    ∀ {l : List (String × Json)}, KeySorted strLe l → strKeysSorted l = true
  | [], _ => rfl
  | [_], _ => rfl
  | (k1, v1) :: (k2, v2) :: es, h => by
    rw [KeySorted, List.pairwise_cons] at h
    show (strLe k1 k2 && strKeysSorted ((k2, v2) :: es)) = true
    rw [Bool.and_eq_true]
    exact ⟨h.1 (k2, v2) (List.mem_cons_self _ _),
      strKeysSorted_of_keySorted (l := (k2, v2) :: es) h.2⟩

theorem lexKeysOkEntries_eq_all : ∀ es : List (String × Json),
    lexKeysOkEntries es = es.all (fun e => lexKeysOk e.2)
  | [] => rfl
  | (k, v) :: es => by
    simp [lexKeysOkEntries, lexKeysOkEntries_eq_all es]

mutual

theorem lexKeysOk_canonJson : ∀ j : Json, lexKeysOk (canonJson j) = true
  | .str _ => rfl
  | .num _ => rfl
  | .bool _ => rfl
  | .null => rfl
  | .arr xs => lexKeysOkList_canonList xs
  | .obj es => by
    show (strKeysSorted (sortPairs strLe (canonEntries es)) &&
      lexKeysOkEntries (sortPairs strLe (canonEntries es))) = true
    rw [Bool.and_eq_true]
    refine ⟨strKeysSorted_of_keySorted
      (sortPairs_sorted strLe_total strLe_trans _), ?_⟩
    rw [lexKeysOkEntries_eq_all,
      all_of_perm (sortPairs_perm (canonEntries es)) _,
      ← lexKeysOkEntries_eq_all]
    exact lexKeysOkEntries_canonEntries es

theorem lexKeysOkList_canonList : ∀ xs : List Json,
    lexKeysOkList (canonList xs) = true
  | [] => rfl
  | j :: js => by
    show (lexKeysOk (canonJson j) && lexKeysOkList (canonList js)) = true
    rw [lexKeysOk_canonJson j, lexKeysOkList_canonList js]
    rfl

theorem lexKeysOkEntries_canonEntries : ∀ es : List (String × Json),
    lexKeysOkEntries (canonEntries es) = true
  | [] => rfl
  | (k, v) :: es => by
    show (lexKeysOk (canonJson v) && lexKeysOkEntries (canonEntries es)) = true
    rw [lexKeysOk_canonJson v, lexKeysOkEntries_canonEntries es]
    rfl

end

theorem strKeysSorted_sortMap {ν : Type} (f : ν → Json) (l : List (String × ν)) :
    strKeysSorted ((sortPairs strLe l).map (fun e => (e.1, f e.2))) = true :=
  strKeysSorted_of_keySorted
    (keySorted_mapVal f (sortPairs_sorted strLe_total strLe_trans l))

theorem strKeysSorted_canonObj (es : List (String × Json)) :
    strKeysSorted (canonObj es) = true :=
  strKeysSorted_of_keySorted (sortPairs_sorted strLe_total strLe_trans _)

theorem strKeysSorted_optFields (b1 b2 b3 b4 b5 b6 : Bool) (t : String)
    (v1 v2 v3 : Json) (s4 : String) (v5 v6 : Json) :
    strKeysSorted (optField b1 "compilers" v1 ++
      (optField b2 "dependencies" v2 ++
      (("manifest", .str t) ::
      (optField b3 "metadata" v3 ++
      (optField b4 "name" (.str s4) ++
      (optField b5 "sources" v5 ++
      optField b6 "types" v6)))))) = true := by
  cases b1 <;> cases b2 <;> cases b3 <;> cases b4 <;> cases b5 <;>
    cases b6 <;> rfl

theorem strKeysSorted_encodeDoc (m : Manifest) :
    strKeysSorted (Json.entriesOf m.encodeDoc) = true := by
  simp only [Manifest.encodeDoc, Json.entriesOf]
  exact strKeysSorted_optFields _ _ _ _ _ _ _ _ _ _ _ _ _

theorem strKeysSorted_topVal {m : Manifest} {k : String}
    {o : List (String × Json)}
    (h : findVal (Json.entriesOf m.encodeDoc) k = some (.obj o)) :
    strKeysSorted o = true := by
  have hmem := findVal_mem h
  simp only [Manifest.encodeDoc, Json.entriesOf] at hmem
  rcases List.mem_append.mp hmem with h1 | h1
  · obtain ⟨-, hv⟩ := mem_optField h1
    injection hv with ho
    rw [ho]
    exact strKeysSorted_sortMap _ _
  rcases List.mem_append.mp h1 with h2 | h2
  · obtain ⟨-, hv⟩ := mem_optField h2
    injection hv with ho
    rw [ho]
    exact strKeysSorted_sortMap _ _
  rcases List.mem_cons.mp h2 with h3 | h3
  · injection h3 with h3a h3b
    injection h3b
  rcases List.mem_append.mp h3 with h4 | h4
  · obtain ⟨-, hv⟩ := mem_optField h4
    injection hv with ho
    rw [ho]
    exact strKeysSorted_canonObj _
  rcases List.mem_append.mp h4 with h5 | h5
  · obtain ⟨-, hv⟩ := mem_optField h5
    injection hv
  rcases List.mem_append.mp h5 with h6 | h6
  · obtain ⟨-, hv⟩ := mem_optField h6
    injection hv with ho
    rw [ho]
    exact strKeysSorted_sortMap _ _
  · obtain ⟨-, hv⟩ := mem_optField h6
    injection hv with ho
    rw [ho]
    exact strKeysSorted_sortMap _ _

theorem strKeysSorted_checksumEnc (c : Checksum) :
    strKeysSorted (Json.entriesOf c.enc) = true := rfl

theorem strKeysSorted_linkEnc (l : Link) :
    strKeysSorted (Json.entriesOf l.enc) = true := by
  obtain ⟨uri, cs⟩ := l
  cases cs <;> rfl

theorem strKeysSorted_compilerEnc (c : Compiler) :
    strKeysSorted (Json.entriesOf c.enc) = true := by
  obtain ⟨bin, settings⟩ := c
  cases settings <;> rfl

theorem strKeysSorted_sourceEnc (s : Source) :
    strKeysSorted (Json.entriesOf s.enc) = true :=
  strKeysSorted_of_keySorted (sortPairs_sorted strLe_total strLe_trans _)

theorem strKeysSorted_ctEnc (ct : ContractType) :
    strKeysSorted (Json.entriesOf ct.enc) = true := by
  obtain ⟨comp, srcs, deps, out⟩ := ct
  cases deps <;> cases out <;> cases srcs <;> rfl

theorem findVal_ctEnc_sources (ct : ContractType) (h : ¬ ct.sources = []) :
    findVal (Json.entriesOf ct.enc) "sources" =
      some (.arr (ct.sources.map .str)) := by
  obtain ⟨comp, srcs, deps, out⟩ := ct
  cases srcs with
  | nil => exact absurd rfl h
  | cons s ss => cases deps <;> cases out <;> rfl

theorem findVal_ctEnc_deployments (ct : ContractType)
    (h : ¬ ct.deployments = []) :
    findVal (Json.entriesOf ct.enc) "deployments" =
      some (.obj ((sortPairs intLe ct.deployments).map
        (fun e => (intStr e.1, .arr (e.2.map .str))))) := by
  obtain ⟨comp, srcs, deps, out⟩ := ct
  cases deps with
  | nil => exact absurd rfl h
  | cons d ds => rfl

/-- C2 (amended): `encode` produces a deterministic minimal serialization:
structurally equal manifests render to identical text; a manifest whose
`metadata` and `dependencies` are empty omits both fields; every object's
keys are emitted in Python `sorted` order - code-point lexicographic for
string keys (the top level, every nested model object, the dynamic
string-keyed mappings and all raw metadata/settings/extra objects), but
NUMERIC for the integer keys of `deployments` (the original claim said
lexicographic for all mapping keys; a deployments mapping with keys `2`
and `10` renders `"2"` before `"10"`, which is not code-point order);
`ContractType.sources` and each deployments address list keep their source
order (the emitted deployments object is exactly the source mapping
re-ordered by numeric key); and whenever no string datum of the document
contains a space, the rendered text contains no whitespace at all (the
separators are `","`/`":"`, and `ensure_ascii` escapes every control and
non-ASCII character). -/
theorem c2_canonical_encoding :
    (∀ m : Manifest, m.metadata = [] → m.dependencies = [] →
      findVal (Json.entriesOf m.encodeDoc) "metadata" = none ∧
      findVal (Json.entriesOf m.encodeDoc) "dependencies" = none) ∧
    (∀ a b : Manifest, a.StructEq b → a.jsonChars = b.jsonChars) ∧
    (∀ m : Manifest, strKeysSorted (Json.entriesOf m.encodeDoc) = true) ∧
    (∀ (m : Manifest) (k : String) (o : List (String × Json)),
      findVal (Json.entriesOf m.encodeDoc) k = some (.obj o) →
        strKeysSorted o = true) ∧
    (∀ j : Json, lexKeysOk (canonJson j) = true) ∧
    (∀ c : Checksum, strKeysSorted (Json.entriesOf c.enc) = true) ∧
    (∀ l : Link, strKeysSorted (Json.entriesOf l.enc) = true) ∧
    (∀ c : Compiler, strKeysSorted (Json.entriesOf c.enc) = true) ∧
    (∀ s : Source, strKeysSorted (Json.entriesOf s.enc) = true) ∧
    (∀ ct : ContractType, strKeysSorted (Json.entriesOf ct.enc) = true ∧
      (¬ ct.sources = [] →
        findVal (Json.entriesOf ct.enc) "sources" =
          some (.arr (ct.sources.map .str))) ∧
      (¬ ct.deployments = [] →
        findVal (Json.entriesOf ct.enc) "deployments" =
          some (.obj ((sortPairs intLe ct.deployments).map
            (fun e => (intStr e.1, .arr (e.2.map .str))))) ∧
        (sortPairs intLe ct.deployments).Perm ct.deployments ∧
        KeySorted intLe (sortPairs intLe ct.deployments))) ∧
    (∀ m : Manifest, strsSpaceFree m.encodeDoc = true →
      wsFreeL m.jsonChars = true) := by
  refine ⟨fun m h1 h2 => ⟨?_, ?_⟩, fun a b hab => ?_, strKeysSorted_encodeDoc,
    fun m k o h => strKeysSorted_topVal h, lexKeysOk_canonJson,
    strKeysSorted_checksumEnc, strKeysSorted_linkEnc, strKeysSorted_compilerEnc,
    strKeysSorted_sourceEnc,
    fun ct => ⟨strKeysSorted_ctEnc ct, findVal_ctEnc_sources ct,
      fun hd => ⟨findVal_ctEnc_deployments ct hd, sortPairs_perm _,
        sortPairs_sorted intLe_total intLe_trans _⟩⟩,
    fun m h => ?_⟩
  · rw [findVal_encodeDoc_metadata m, h1]
    rfl
  · rw [findVal_encodeDoc_dependencies m, h2]
    rfl
  · show dumpChars a.encodeDoc = dumpChars b.encodeDoc
    rw [← Manifest.encodeDoc_canon a, ← Manifest.encodeDoc_canon b,
      show a.canon = b.canon from hab]
  · show wsFreeL (dumpChars m.encodeDoc) = true
    exact dumpChars_wsFree _ h

/-- Counterexample to C2 as stated: in the valid manifest `c2m` the
deployments keys `2` and `10` are emitted in numeric order (`"2"` before
`"10"`), so not every object of the encoded document has its keys in
lexicographic order. -/
theorem c2_counterexample :
    c2m.validB = true ∧ lexKeysOk c2m.encodeDoc = false := ⟨rfl, rfl⟩

/-- Concrete instance of `c2_canonical_encoding`: the empty-mapping
omissions at `c2m`, the insertion-order independence of the rendering at
`c2mPerm`/`c2m`, the order preservation of `sources` and of a deployments
address list at a concrete contract type, and the whitespace-freeness of
`c1m`'s rendering. -/
theorem c2_canonical_encoding_witness :
    (findVal (Json.entriesOf c2m.encodeDoc) "metadata" = none ∧
      findVal (Json.entriesOf c2m.encodeDoc) "dependencies" = none) ∧
    c2mPerm.jsonChars = c2m.jsonChars ∧
    findVal (Json.entriesOf (ContractType.enc
      ⟨"c", ["./a.sol"], [(2, [exAddr]), (10, [])], none⟩)) "sources" =
      some (.arr [.str "./a.sol"]) ∧
    findVal (Json.entriesOf (ContractType.enc
      ⟨"c", ["./a.sol"], [(2, [exAddr]), (10, [])], none⟩)) "deployments" =
      some (.obj [("2", .arr [.str exAddr]), ("10", .arr [])]) ∧
    wsFreeL c1m.jsonChars = true := by
  obtain ⟨h1, h2, -, -, -, -, -, -, -, h10, h11⟩ := c2_canonical_encoding
  refine ⟨h1 c2m rfl rfl, h2 c2mPerm c2m rfl, ?_, ?_, h11 c1m rfl⟩
  · exact (h10 ⟨"c", ["./a.sol"], [(2, [exAddr]), (10, [])], none⟩).2.1
      (List.cons_ne_nil _ _)
  · exact (((h10 ⟨"c", ["./a.sol"], [(2, [exAddr]), (10, [])], none⟩).2.2
      (List.cons_ne_nil _ _)).1).trans rfl

end Cpack
